import Mathlib

/-!
Verification of the `learned-kv` repository's MPHF core (`ptr_hash_patched`)
against its specification.

The development shallowly embeds the single-part build and query pipeline of
`ptr_hash_patched/src/lib.rs` and `build.rs`:

* machine integers (`u64`) become `Nat` with explicit reductions modulo `2^64`;
* the per-part pilot search (`build_part`, `find_pilot`, the eviction loop) is
  embedded as a fuel-based functional program over explicit state;
* the remap construction (`remap_free_slots`) is embedded as a structurally
  recursive program;
* the seed-retry loop of `compute_pilots` / `try_new` is embedded with the
  global RNG modelled as an explicit stream of seeds (the RNG itself lives in
  the external `rand_chacha` crate);
* `fastrand::Rng` draws used for the slow-path start offset `p0` in
  `build_part` are modelled as an explicit list of draws.

The repository ships without `fastmod.rs`, `sort_buckets.rs` and
`bucket_idx.rs` (they are referenced from `lib.rs` but absent from the
sources), so the corresponding functions are modelled from the specification
text, as indicated in their doc comments.

The embedding fixes `parts = 1`, which is the code's own choice for
`n < 10000` and for `single_part = true` (lib.rs lines 470-498), and uses the
64-bit `FastIntHash` hasher with the `Linear` bucket function and `Vec<u32>`
remap backing, as instantiated by the wrapper store in `src/kv_store.rs`.
-/

namespace LearnedKv

/-- `2^64`, the modulus of `u64` arithmetic. -/
def U64 : Nat := 2 ^ 64

/-- util.rs `mul_high`: `((a as u128 * b as u128) >> 64) as u64`. -/
def mulHigh (a b : Nat) : Nat := a * b / U64

/-- hash.rs: the mixing constant `C`. -/
def hashC : Nat := 0x517cc1b727220a95

/-- lib.rs `hash_pilot`: `C.wrapping_mul(p ^ seed)`. -/
def hashPilot (seed p : Nat) : Nat := (hashC * (p ^^^ seed % U64)) % U64

/-- Modelled from the spec: `FastIntHash` (§4.1, "one wrapping multiplication
by a large odd mixing constant", seeded).  The hasher itself lives in the
external `fxhash` crate; `hash.rs` composes it with `finish() ^ seed`.  For a
`u64` key this is `(key.wrapping_mul(C)) ^ seed`. -/
def fastIntHash (x seed : Nat) : Nat := ((x * hashC) % U64) ^^^ (seed % U64)

/-- Rust `usize::is_power_of_two` (the standard library's contract; its
bit-trick implementation is not part of this repository), written with a fuel
argument so that it reduces structurally; `n` steps of halving always
suffice. -/
def isPow2Go : Nat → Nat → Bool
  | _, 0 => false
  | _, 1 => true
  | 0, _ => false
  | fuel + 1, n + 2 => (n + 2) % 2 == 0 && isPow2Go fuel ((n + 2) / 2)

/-- Rust `usize::is_power_of_two`. -/
def isPow2 (n : Nat) : Bool := isPow2Go n n

/-- The scalar shape of a single-part PtrHash instance: lib.rs fields `n`,
`slots` (slots per part), `buckets` (buckets per part; with one part this is
also `buckets_total` and `slots` is also `slots_total`), and the
`params.remap` flag. -/
structure Cfg where
  n : Nat
  slots : Nat
  buckets : Nat
  remapEnabled : Bool
deriving Repr, DecidableEq

/-- Modelled from the spec: the `%slots_per_part` reducer `FM32`
(`fastmod.rs` is absent from the sources; spec §4.2 describes it as the exact
`%slots_per_part` reduction via a precomputed multiplicative inverse).
lib.rs line 553 constructs it with modulus `slots_per_part.max(1)`. -/
def fm32 (cfg : Cfg) (h : Nat) : Nat := h % max cfg.slots 1

/-- lib.rs `slot_in_part_hp`: `rem_slots.reduce(hx.low() ^ hp)`. -/
def slotInPartHp (cfg : Cfg) (hx hp : Nat) : Nat := fm32 cfg (hx ^^^ hp)

/-- lib.rs `bucket` for the `Linear` bucket function:
`rem_buckets_total.reduce(hx.high())`; with one part `buckets_total` is
`cfg.buckets`.  reduce is reduce.rs `FastReduce`: `mul_high(d, h)`. -/
def bucketOf (cfg : Cfg) (hx : Nat) : Nat := mulHigh cfg.buckets hx

/-- The built index: scalars plus the computed seed, pilots and remap table
(lib.rs `PtrHash` fields `seed`, `pilots: Vec<u8>`, `remap: Vec<u32>`). -/
structure PH where
  cfg : Cfg
  seed : Nat
  pilots : List Nat
  remap : List Nat
deriving Repr, DecidableEq

/-- The slot of a hash under the pilot stored for its bucket.  This is the
shared core of `index_no_remap` and of the streaming/batched query paths;
pilot lookup is pack.rs `Packed for Vec<u8>`, in bounds whenever the bucket
index is (out-of-bounds pilot reads do not occur: the bucket index is always
below `buckets_total = pilots.len()`). -/
def slotOfHash (ph : PH) (hx : Nat) : Nat :=
  slotInPartHp ph.cfg hx (hashPilot ph.seed (ph.pilots.getD (bucketOf ph.cfg hx) 0))

/-- lib.rs `index_no_remap`. -/
def indexNoRemap (ph : PH) (key : Nat) : Nat :=
  slotOfHash ph (fastIntHash key ph.seed)

/-- The remap step of lib.rs `index` applied to an already computed slot,
under the precondition that the remap read `remap.index(slot - n)` is in
bounds (pack.rs uses `get_unchecked`). -/
def minimalIndexOfSlot (ph : PH) (s : Nat) : Nat :=
  if s < ph.cfg.n then s else ph.remap.getD (s - ph.cfg.n) 0

/-- lib.rs `index`: `index_no_remap`, then remap when the slot is `>= n`.
This total function models the source under the in-bounds precondition for
the unchecked remap read; `indexChecked` makes the bounds check explicit. -/
def index (ph : PH) (key : Nat) : Nat :=
  minimalIndexOfSlot ph (indexNoRemap ph key)

/-- lib.rs `index` with the unchecked remap read (pack.rs
`get_unchecked(index)`) made explicit: returns `none` exactly when the read
`remap.index(slot - n)` is out of bounds, which is undefined behaviour in the
source. -/
def indexChecked (ph : PH) (key : Nat) : Option Nat :=
  let s := indexNoRemap ph key
  if s < ph.cfg.n then some s else ph.remap.get? (s - ph.cfg.n)

/-! ### Build side: sorting and bucket assignment -/

/-- Insert into an ascending list (used to model the radix sort of hashes). -/
def insertAsc (x : Nat) : List Nat → List Nat
  | [] => [x]
  | y :: r => if x ≤ y then x :: y :: r else y :: insertAsc x r

/-- Ascending insertion sort. -/
def sortAsc (l : List Nat) : List Nat := l.foldr insertAsc []

/-- Adjacent-duplicate test on a (sorted) list. -/
def adjDup : List Nat → Bool
  | [] => false
  | [_] => false
  | a :: b :: r => a == b || adjDup (b :: r)

/-- Modelled from the spec: `sort_parts` (in the absent `sort_buckets.rs`)
radix-sorts the shard's hashes and fails when two hashes are bit-identical
("Found duplicate hashes", lib.rs line 618); with one part the part-starts
array is trivial. -/
def sortParts (hashes : List Nat) : Option (List Nat) :=
  let s := sortAsc hashes
  if adjDup s then none else some s

/-- The hashes owned by bucket `b` of the part.  Models the contiguous slice
`hashes[starts[b]..starts[b+1]]` produced by the absent `sort_buckets.rs`:
hashes are sorted, and for the `Linear` bucket function the bucket index is
monotone in the hash, so the slice of bucket `b` is the sorted sublist of
hashes with bucket `b`. -/
def bucketHashes (cfg : Cfg) (hashes : List Nat) (b : Nat) : List Nat :=
  hashes.filter (fun h => bucketOf cfg h == b)

/-- Stable insert for the size-descending bucket order. -/
def insertBySize (len : Nat → Nat) (b : Nat) : List Nat → List Nat
  | [] => [b]
  | c :: r => if len c < len b then b :: c :: r else c :: insertBySize len b r

/-- Modelled from the spec: `bucket_order` (absent `sort_buckets.rs`; spec
§4.5 step 1: indices sorted by bucket size descending, stable within equal
sizes). -/
def bucketOrder (len : Nat → Nat) (nBuckets : Nat) : List Nat :=
  (List.range nBuckets).foldl (fun acc b => insertBySize len b acc) []

/-! ### Build side: pilot search (build.rs `build_part`) -/

/-- The destination slots of a bucket's hashes under pilot hash `hp`
(build.rs `slots_for_bucket` / `b_slots`). -/
def slotsHp (cfg : Cfg) (bucket : List Nat) (hp : Nat) : List Nat :=
  bucket.map (fun hx => slotInPartHp cfg hx hp)

/-- The destination slots of a bucket's hashes under pilot `p`. -/
def pslots (cfg : Cfg) (seed : Nat) (bucket : List Nat) (p : Nat) : List Nat :=
  slotsHp cfg bucket (hashPilot seed p)

/-- build.rs `duplicate_slots`: sort the bucket's slots and look for an
adjacent pair of equal values. -/
def duplicateSlots (cfg : Cfg) (seed : Nat) (bucket : List Nat) (p : Nat) : Bool :=
  adjDup (sortAsc (pslots cfg seed bucket p))

/-- Mark a list of slots as taken (build.rs `try_take_pilot` fills `taken`). -/
def setTakenList (taken : List Bool) (ss : List Nat) : List Bool :=
  ss.foldl (fun t s => t.set s true) taken

/-- Clear a list of slots in the taken bitmap (eviction). -/
def clearTakenList (taken : List Bool) (ss : List Nat) : List Bool :=
  ss.foldl (fun t s => t.set s false) taken

/-- Record bucket `b` as owner of a list of slots (`slots[p] = b`). -/
def writeOwners (sl : List (Option Nat)) (ss : List Nat) (b : Nat) : List (Option Nat) :=
  ss.foldl (fun a s => a.set s (some b)) sl

/-- Clear ownership of a list of slots (`slots[p2] = BucketIdx::NONE`). -/
def clearOwners (sl : List (Option Nat)) (ss : List Nat) : List (Option Nat) :=
  ss.foldl (fun a s => a.set s none) sl

/-- build.rs `find_pilot` + `try_take_pilot`, tried for pilots `p0, p0+1, …`:
accept the first pilot whose slots are all free and contain no internal
duplicate, and fill `taken` with them.  (The source's chunks-of-4 scan and
the backtracking fill are performance shapes of the same predicate.) -/
def findPilotGo (cfg : Cfg) (seed : Nat) (bucket : List Nat) (taken : List Bool) :
    Nat → Nat → Option (Nat × List Bool)
  | 0, _ => none
  | fuel + 1, p =>
    if (pslots cfg seed bucket p).all (fun s => !taken.getD s false) &&
        !adjDup (sortAsc (pslots cfg seed bucket p)) then
      some (p, setTakenList taken (pslots cfg seed bucket p))
    else
      findPilotGo cfg seed bucket taken fuel (p + 1)

/-- build.rs `find_pilot` with `kmax = 256`. -/
def findPilot (cfg : Cfg) (seed : Nat) (bucket : List Nat) (taken : List Bool) :
    Option (Nat × List Bool) :=
  findPilotGo cfg seed bucket taken 256 0

/-- The loop-carried state of `build_part`: the pilots array, the taken
bitmap, the slot-to-owning-bucket array, the eviction work heap, the eviction
counter, the 16-entry recently-placed ring, its index, and the number of
`fastrand` draws consumed so far. -/
structure EvSt where
  pilots : List Nat
  taken : List Bool
  slotsArr : List (Option Nat)
  stack : List (Nat × Nat)
  evictions : Nat
  recent : List (Option Nat)
  recentIdx : Nat
  drawIdx : Nat
deriving Repr, DecidableEq

/-- Lexicographic order on `(bucket size, bucket index)` pairs, the `Ord`
used by the `BinaryHeap` in build.rs. -/
def pairLt (a b : Nat × Nat) : Bool :=
  a.1 < b.1 || (a.1 == b.1 && a.2 < b.2)

/-- The maximum element of a heap list (`BinaryHeap::pop` returns the
`(size, idx)`-lexicographic maximum; heap elements are pairwise distinct). -/
def heapMax (x : Nat × Nat) (l : List (Nat × Nat)) : Nat × Nat :=
  l.foldl (fun m e => if pairLt m e then e else m) x

/-- `BinaryHeap::pop`: remove and return the maximum element. -/
def heapPop (stack : List (Nat × Nat)) : Option ((Nat × Nat) × List (Nat × Nat)) :=
  match stack with
  | [] => none
  | x :: r => let m := heapMax x r; some (m, (x :: r).erase m)

/-- build.rs lines 148-184: the failure-detection condition checked when a
bucket is popped, with `evictions` the current eviction-chain length.  The
outer guard is `evictions > self.slots && evictions.is_power_of_two()`; the
abort fires when additionally `evictions >= 10 * self.slots`. -/
def abortCheck (slots evictions : Nat) : Bool :=
  decide (slots < evictions) && isPow2 evictions && decide (10 * slots ≤ evictions)

/-- One step of the slow-path collision score (build.rs lines 221-237):
accumulate the squared sizes of colliding owner buckets; `none` models
`continue 'p` (a recently-evicted owner, or the score reaching the current
best). -/
def scoreLoop (lenOf : Nat → Nat) (sl : List (Option Nat)) (recent : List (Option Nat))
    (best : Option (Nat × Nat)) : List Nat → Nat → Option Nat
  | [], acc => some acc
  | s :: rest, acc =>
    match sl.getD s none with
    | none => scoreLoop lenOf sl recent best rest acc
    | some owner =>
      if recent.contains (some owner) then none
      else
        match best with
        | some b =>
          if b.1 ≤ acc + lenOf owner * lenOf owner then none
          else scoreLoop lenOf sl recent best rest (acc + lenOf owner * lenOf owner)
        | none => scoreLoop lenOf sl recent best rest (acc + lenOf owner * lenOf owner)

/-- build.rs lines 215-250: scan pilots `p0, p0+1, … (mod 256)`, keeping the
best `(collision score, pilot)`; pilots with an internal duplicate slot are
skipped, and the scan breaks early once a score of `new_b_len²` is reached. -/
def slowGo (cfg : Cfg) (seed : Nat) (lenOf : Nat → Nat) (sl : List (Option Nat))
    (recent : List (Option Nat)) (bucket : List Nat) (newBLen p0 : Nat) :
    Nat → Nat → Option (Nat × Nat) → Option (Nat × Nat)
  | 0, _, best => best
  | fuel + 1, delta, best =>
    match scoreLoop lenOf sl recent best (pslots cfg seed bucket ((p0 + delta) % 256)) 0 with
    | none => slowGo cfg seed lenOf sl recent bucket newBLen p0 fuel (delta + 1) best
    | some score =>
      if duplicateSlots cfg seed bucket ((p0 + delta) % 256) then
        slowGo cfg seed lenOf sl recent bucket newBLen p0 fuel (delta + 1) best
      else if score == newBLen * newBLen then some (score, (p0 + delta) % 256)
      else slowGo cfg seed lenOf sl recent bucket newBLen p0 fuel (delta + 1)
        (some (score, (p0 + delta) % 256))

/-- The slow-path pilot choice: `some (score, p)` of the minimizing pilot, or
`none` when every pilot was skipped (the "indistinguishable hashes" case,
build.rs lines 252-266). -/
def slowSearch (cfg : Cfg) (seed : Nat) (lenOf : Nat → Nat) (sl : List (Option Nat))
    (recent : List (Option Nat)) (bucket : List Nat) (newBLen p0 : Nat) :
    Option (Nat × Nat) :=
  slowGo cfg seed lenOf sl recent bucket newBLen p0 256 0 none

/-- build.rs lines 283-309: place bucket `b` on its slot list, evicting every
colliding owner (push it on the heap, clear its slots and ownership), then
write `b` into the slot.  `none` models the `assert!(b2 != b)` panic. -/
def placeSlots (cfg : Cfg) (seed : Nat) (bh : Nat → List Nat) (b : Nat) :
    List Nat → EvSt → Option EvSt
  | [], st => some st
  | s :: rest, st =>
    match st.slotsArr.getD s none with
    | none =>
      placeSlots cfg seed bh b rest
        { st with slotsArr := st.slotsArr.set s (some b), taken := st.taken.set s true }
    | some b2 =>
      if b2 = b then none
      else
        placeSlots cfg seed bh b rest
          { st with
            stack := ((bh b2).length, b2) :: st.stack
            evictions := st.evictions + 1
            slotsArr := (clearOwners st.slotsArr
              (pslots cfg seed (bh b2) (st.pilots.getD b2 0))).set s (some b)
            taken := (clearTakenList st.taken
              (pslots cfg seed (bh b2) (st.pilots.getD b2 0))).set s true }

/-- build.rs lines 147-314: the eviction loop for one top-level bucket.  Pops
the largest pending bucket, aborts on the failure-detection check, tries the
collision-free fast path, and otherwise resolves collisions via the slow
path, drawing `p0` from the modelled `fastrand` stream.  `none` covers the
abort, the indistinguishable-hashes failure, the modelled assertion, and fuel
exhaustion (the source loop has no termination guarantee of its own). -/
def evictLoop (cfg : Cfg) (seed : Nat) (bh : Nat → List Nat) (newBLen : Nat)
    (draws : List Nat) : Nat → EvSt → Option EvSt
  | 0, _ => none
  | fuel + 1, st =>
    match heapPop st.stack with
    | none => some st
    | some ((_, b), stack1) =>
      if abortCheck cfg.slots st.evictions then none
      else
        match findPilot cfg seed (bh b) st.taken with
        | some (p, taken1) =>
          evictLoop cfg seed bh newBLen draws fuel
            { st with
              stack := stack1
              taken := taken1
              pilots := st.pilots.set b p
              slotsArr := writeOwners st.slotsArr (pslots cfg seed (bh b) p) b }
        | none =>
          match slowSearch cfg seed (fun c => (bh c).length) st.slotsArr st.recent
              (bh b) newBLen ((draws.getD st.drawIdx 0) % 256) with
          | none => none
          | some sp =>
            match placeSlots cfg seed bh b (pslots cfg seed (bh b) sp.2)
                { st with
                  stack := stack1
                  drawIdx := st.drawIdx + 1
                  pilots := st.pilots.set b sp.2 } with
            | none => none
            | some st3 =>
              evictLoop cfg seed bh newBLen draws fuel
                { st3 with
                  recent := st3.recent.set ((st3.recentIdx + 1) % 16) (some b)
                  recentIdx := (st3.recentIdx + 1) % 16 }

/-- build.rs lines 132-319: process the buckets in `bucket_order`; empty
buckets get pilot 0, nonempty ones run the eviction loop starting from a
fresh heap, eviction counter and recently-placed ring. -/
def buildPartGo (cfg : Cfg) (seed : Nat) (bh : Nat → List Nat) (draws : List Nat)
    (fuel : Nat) : List Nat → EvSt → Option EvSt
  | [], st => some st
  | newB :: rest, st =>
    if (bh newB).isEmpty then
      buildPartGo cfg seed bh draws fuel rest { st with pilots := st.pilots.set newB 0 }
    else
      match evictLoop cfg seed bh (bh newB).length draws fuel
          { st with
            stack := [((bh newB).length, newB)]
            evictions := 0
            recent := (List.replicate 16 (none : Option Nat)).set 0 (some newB)
            recentIdx := 0 } with
      | none => none
      | some st2 => buildPartGo cfg seed bh draws fuel rest st2

/-- build.rs `build_part` for the single part: returns the pilots array, the
taken bitmap and the number of rng draws consumed. -/
def buildPart (cfg : Cfg) (seed : Nat) (hashes draws : List Nat) (fuel : Nat) :
    Option (List Nat × List Bool × Nat) :=
  match buildPartGo cfg seed (bucketHashes cfg hashes) draws fuel
      (bucketOrder (fun b => (bucketHashes cfg hashes b).length) cfg.buckets)
      { pilots := List.replicate cfg.buckets 0
        taken := List.replicate cfg.slots false
        slotsArr := List.replicate cfg.slots none
        stack := []
        evictions := 0
        recent := List.replicate 16 none
        recentIdx := 0
        drawIdx := 0 } with
  | none => none
  | some st => some (st.pilots, st.taken, st.drawIdx)

/-! ### Build side: remap of free slots (lib.rs `remap_free_slots`) -/

/-- Count of `false` entries (`count_zeros`). -/
def countFalse (l : List Bool) : Nat := l.count false

/-- The ascending list of free slot indices (lib.rs lines 673-680: iterate
the zeros of the taken bitmaps in index order). -/
def freeList (taken : List Bool) : List Nat :=
  (List.range taken.length).filter (fun i => !taken.getD i false)

/-- The free slots below `n` (`take_while(|&i| i < self.n)`). -/
def freeLows (taken : List Bool) (n : Nat) : List Nat :=
  (freeList taken).takeWhile (fun i => decide (i < n))

/-- The inner `while !get(&taken, self.n + v.len()) { v.push(i) }` followed
by the final `v.push(i)`: push `i` until the slot `n + v.len()` is taken, and
once more.  `none` models the out-of-bounds panic of the bitmap read. -/
def remapWhile (taken : List Bool) (n : Nat) (i : Nat) (v : List Nat) : Option (List Nat) :=
  if h : n + v.length < taken.length then
    if taken.get ⟨n + v.length, h⟩ then some (v ++ [i])
    else remapWhile taken n i (v ++ [i])
  else none
termination_by taken.length - (n + v.length)
decreasing_by simp; omega

/-- The outer loop of lib.rs lines 675-686 over the free slots below `n`. -/
def remapGo (taken : List Bool) (n : Nat) : List Nat → List Nat → Option (List Nat)
  | [], v => some v
  | i :: rest, v =>
    match remapWhile taken n i v with
    | none => none
    | some v1 => remapGo taken n rest v1

/-- lib.rs `remap_free_slots`.  `none` models the `assert_eq!` panic on a
wrong free-slot count and the modelled out-of-bounds panic; with remapping
disabled or no overflow slots the table stays empty.  The `Vec<u32>`
`MutPacked::try_new` conversion always succeeds for values below `2^32`
(remap values are free slots `< n`; the `u32` overflow panic for `n ≥ 2^32`
is outside the modelled range). -/
def remapFreeSlots (cfg : Cfg) (taken : List Bool) : Option (List Nat) :=
  if countFalse taken ≠ cfg.slots - cfg.n then none
  else if !cfg.remapEnabled || cfg.slots == cfg.n then some []
  else remapGo taken cfg.n (freeLows taken cfg.n) []

/-! ### Initialization (lib.rs `init`, single part) and the build pipeline -/

/-- lib.rs lines 502-506 with the `f64` division `keys_per_part / alpha`
modelled as exact rational arithmetic (`alpha = alphaNum / alphaDen`, the
default `0.99 = 99/100`): the `as usize` cast truncates, and a power of two
is bumped by one. -/
def slotsPerPart (kpp alphaNum alphaDen : Nat) : Nat :=
  let s0 := kpp * alphaDen / alphaNum
  if isPow2 s0 then s0 + 1 else s0

/-- lib.rs line 509: `(keys_per_part as f64 / lambda).ceil() as usize + 3`,
with `lambda = lamNum / lamDen` modelled as exact rational arithmetic. -/
def bucketsPerPart (kpp lamNum lamDen : Nat) : Nat :=
  (kpp * lamDen + (lamNum - 1)) / lamNum + 3

/-- Outcomes of lib.rs `init`: the two `OVERFLOW PREVENTION` panics of lines
512-523, or the computed configuration. -/
inductive InitOutcome where
  | bucketsOverflow
  | slotsOverflow
  | ok (slotsPerPart bucketsPerPart slotsTotal bucketsTotal : Nat)
deriving Repr, DecidableEq

/-- lib.rs `init` lines 500-523 for a given number of parts: derive the
per-part and total slot and bucket counts and run the two overflow-prevention
checks (`buckets_total > 100_000_000`, then `slots_total > 1_000_000_000`).
The `parts` count itself comes from the floating-point heuristic of lines
470-498 and is passed in as a parameter; lines 474-477 pin it to `1` whenever
`n < 10000` or `single_part` is set. -/
def initDerive (n parts alphaNum alphaDen lamNum lamDen : Nat) : InitOutcome :=
  let kpp := n / parts
  let spp := slotsPerPart kpp alphaNum alphaDen
  let slotsTotal := parts * spp
  let bpp := bucketsPerPart kpp lamNum lamDen
  let bucketsTotal := parts * bpp
  if bucketsTotal > 100000000 then InitOutcome.bucketsOverflow
  else if slotsTotal > 1000000000 then InitOutcome.slotsOverflow
  else InitOutcome.ok spp bpp slotsTotal bucketsTotal

/-- The single-part configuration for the default parameters of the wrapper
store (`PtrHashParams::default()` = `default_fast`: `alpha = 0.99`,
`lambda = 3.0`, `Linear`, remap enabled), when `init` does not panic. -/
def mkCfg (n : Nat) : Option Cfg :=
  match initDerive n 1 99 100 3 1 with
  | InitOutcome.ok spp bpp _ _ => some { n := n, slots := spp, buckets := bpp, remapEnabled := true }
  | _ => none

/-- One seed attempt of lib.rs `compute_pilots` lines 595-645: hash the keys,
sort them and bail on duplicate hashes, run `build_part`, then build the
remap table. -/
def attempt (cfg : Cfg) (keys : List Nat) (seed : Nat) (draws : List Nat) (fuel : Nat) :
    Option PH :=
  match sortParts (keys.map (fun k => fastIntHash k seed)) with
  | none => none
  | some hashes =>
    match buildPart cfg seed hashes draws fuel with
    | none => none
    | some res =>
      match remapFreeSlots cfg res.2.1 with
      | none => none
      | some remap => some { cfg := cfg, seed := seed, pilots := res.1, remap := remap }

/-- lib.rs `compute_pilots` lines 571-646: the seed-retry loop.  `tries` is
incremented at the top of each iteration and the loop returns `None` once
`tries > MAX_TRIES = 10`; the global `ChaCha8Rng` (external `rand_chacha`
crate) is modelled as the explicit seed stream `seeds`, whose `i`-th value is
the seed of attempt `i`.  `remaining` counts the attempts still allowed. -/
def computePilotsGo (cfg : Cfg) (keys : List Nat) (seeds : Nat → Nat) (draws : List Nat)
    (fuel : Nat) : Nat → Nat → Option PH
  | 0, _ => none
  | remaining + 1, i =>
    match attempt cfg keys (seeds i) draws fuel with
    | some ph => some ph
    | none => computePilotsGo cfg keys seeds draws fuel remaining (i + 1)

/-- lib.rs `try_new`: initialize, then `compute_pilots` with at most 10 seed
attempts; `none` when the seed budget is exhausted (and, in this model, when
`init` would panic on the overflow checks). -/
def tryNew (keys : List Nat) (seeds : Nat → Nat) (draws : List Nat) (fuel : Nat) :
    Option PH :=
  match mkCfg keys.length with
  | none => none
  | some cfg => computePilotsGo cfg keys seeds draws fuel 10 0

/-- Errors of the wrapper store (src/error.rs `KvError`); only `EmptyKeySet`
is produced by `new_with_hasher` itself. -/
inductive KvError where
  | emptyKeySet
deriving Repr, DecidableEq

/-- kv_store.rs `LearnedKvStore::new_with_hasher` lines 74-82: reject an
empty key set at entry, otherwise build the MPHF over the keys.  The inner
`PtrHash::new` panics instead of returning on build failure; `ok none` models
that panic. -/
def newWithHasher (data : List (Nat × Nat)) (seeds : Nat → Nat) (draws : List Nat)
    (fuel : Nat) : Except KvError (Option PH) :=
  if data.isEmpty then Except.error KvError.emptyKeySet
  else Except.ok (tryNew (data.map Prod.fst) seeds draws fuel)

/-! ### Streaming queries (lib.rs `index_stream`) -/

/-- The per-item emission of the `index_stream` fold (lib.rs lines 859-866
and 876-881, `MINIMAL = true`): look up the pilot of the buffered hash's
bucket, compute its slot, and remap when it is `>= n`.  This is the same
computation as `index`. -/
def streamEmit (ph : PH) (hx : Nat) : Nat :=
  minimalIndexOfSlot ph (slotOfHash ph hx)

/-- The main loop of the `fold` (lib.rs lines 851-870): emit the hash
buffered `B` iterations ago, overwrite the ring slot with the new key's hash;
returns the emitted indices, the final ring, and the final counter.  The
source buffers buckets alongside hashes; the bucket entry is always
`bucket(hash entry)`, so only hashes are carried here. -/
def streamMain (ph : PH) (B : Nat) : List Nat → List Nat → Nat → List Nat × List Nat × Nat
  | [], ring, i => ([], ring, i)
  | k :: rest, ring, i =>
    let idx := i % B
    let cur := ring.getD idx 0
    let ring1 := ring.set idx (fastIntHash k ph.seed)
    let r := streamMain ph B rest ring1 (i + 1)
    (streamEmit ph cur :: r.1, r.2.1, r.2.2)

/-- The flush loop (lib.rs lines 872-887): emit `count` more buffered
hashes. -/
def streamFlush (ph : PH) (B : Nat) (ring : List Nat) : Nat → Nat → List Nat
  | _, 0 => []
  | i, count + 1 => streamEmit ph (ring.getD (i % B) 0) :: streamFlush ph B ring (i + 1) count

/-- lib.rs `index_stream::<B, true, _>` consumed through its `fold` (lines
777-899): prefill a ring of `B` hashes (missing keys default), fold over the
remaining keys, then flush the `B - leftover` buffered entries. -/
def streamIndices (ph : PH) (B : Nat) (keys : List Nat) : List Nat :=
  match streamMain ph B (keys.drop B)
      ((keys.take B).map (fun k => fastIntHash k ph.seed) ++
        List.replicate (B - (keys.take B).length) 0) 0 with
  | (out, ringF, iF) => out ++ streamFlush ph B ringF iF (keys.take B).length

/-! ### Auxiliary observers -/

/-- The number of taken overflow positions among `n, n+1, …, n+j-1`: the rank
used to pair taken overflow slots with free slots below `n`. -/
def tcb (taken : List Bool) (n j : Nat) : Nat :=
  ((List.range j).filter (fun t => taken.getD (n + t) false)).length

/-- The slot of hash `hx` under a pilots array: lib.rs `slot_in_part_hp` with
the pilot stored for the hash's bucket.  `slotOfHash ph hx` is exactly
`slotFor ph.cfg ph.seed ph.pilots hx`. -/
def slotFor (cfg : Cfg) (seed : Nat) (pilots : List Nat) (hx : Nat) : Nat :=
  slotInPartHp cfg hx (hashPilot seed (pilots.getD (bucketOf cfg hx) 0))

/-- Bucket `b` owns at least one slot in the state's slot-to-bucket array. -/
def placedIn (st : EvSt) (b : Nat) : Prop :=
  ∃ s, st.slotsArr.getD s none = some b

/-- The buckets currently on the eviction stack. -/
def stackBuckets (st : EvSt) : List Nat := st.stack.map Prod.snd

/-- The core state invariant of `build_part`'s eviction loop: array lengths,
agreement of the `taken` bitmap with slot ownership, and for every owning
bucket: it is in range, nonempty, and its ownership is exactly its
duplicate-free slot list under the current pilot. -/
structure PartInv (cfg : Cfg) (seed : Nat) (bh : Nat → List Nat) (st : EvSt) : Prop where
  taken_len : st.taken.length = cfg.slots
  slots_len : st.slotsArr.length = cfg.slots
  pilots_len : st.pilots.length = cfg.buckets
  agree : ∀ s, st.taken.getD s false = (st.slotsArr.getD s none).isSome
  owner_props : ∀ s b, st.slotsArr.getD s none = some b →
    b < cfg.buckets ∧ bh b ≠ [] ∧
    s ∈ pslots cfg seed (bh b) (st.pilots.getD b 0) ∧
    (pslots cfg seed (bh b) (st.pilots.getD b 0)).Nodup ∧
    ∀ s2 ∈ pslots cfg seed (bh b) (st.pilots.getD b 0),
      st.slotsArr.getD s2 none = some b

/-- The stack invariant of the eviction loop: the stacked buckets are
pairwise distinct, nonempty, in range, and currently unplaced. -/
structure StackInv (cfg : Cfg) (bh : Nat → List Nat) (st : EvSt) : Prop where
  nodup : (stackBuckets st).Nodup
  mem : ∀ e ∈ st.stack, bh e.2 ≠ [] ∧ e.2 < cfg.buckets ∧ ¬ placedIn st e.2

/-- The mid-placement invariant of `placeSlots` while bucket `b` is being
written onto its slot list: lengths, bitmap agreement, full ownership
properties for every bucket other than `b`, and `b` owning exactly the
already-processed slots `done`. -/
structure MidInv (cfg : Cfg) (seed : Nat) (bh : Nat → List Nat) (b : Nat) (done : List Nat)
    (st : EvSt) : Prop where
  taken_len : st.taken.length = cfg.slots
  slots_len : st.slotsArr.length = cfg.slots
  pilots_len : st.pilots.length = cfg.buckets
  agree : ∀ s, st.taken.getD s false = (st.slotsArr.getD s none).isSome
  others : ∀ s c, st.slotsArr.getD s none = some c → c ≠ b →
    c < cfg.buckets ∧ bh c ≠ [] ∧
    s ∈ pslots cfg seed (bh c) (st.pilots.getD c 0) ∧
    (pslots cfg seed (bh c) (st.pilots.getD c 0)).Nodup ∧
    ∀ s2 ∈ pslots cfg seed (bh c) (st.pilots.getD c 0), st.slotsArr.getD s2 none = some c
  partial_b : ∀ s, st.slotsArr.getD s none = some b ↔ s ∈ done

/-! ### Concrete instances used as witnesses and counterexamples -/

/-- The index actually built by the pipeline from the key set `{2}` with seed
stream `0, 0, …` (first attempt succeeds): `n = 1`, two slots, the single key
lands in slot 0, so slot 1 is a free overflow slot and the remap table is
empty. -/
def phKeys2 : PH :=
  { cfg := { n := 1, slots := 2, buckets := 4, remapEnabled := true }
    seed := 0, pilots := [0, 0, 0, 0], remap := [] }

/-- The index actually built by the pipeline from the key set `{1}` with seed
stream `0, 0, …`: the single key lands in slot 1 ≥ n, so the remap table has
one entry redirecting it to the free slot 0. -/
def phKey1 : PH :=
  { cfg := { n := 1, slots := 2, buckets := 4, remapEnabled := true }
    seed := 0, pilots := [0, 0, 0, 0], remap := [0] }

/-- The index actually built by the pipeline from the key set
`{7, 42, 100, 255, 1000}` (spec §8 scenario 1) with seed stream `0, 0, …`. -/
def phKeys5 : PH :=
  { cfg := { n := 5, slots := 5, buckets := 5, remapEnabled := true }
    seed := 0, pilots := [1, 0, 0, 0, 4], remap := [] }

/-- A one-slot, one-bucket configuration for exercising the eviction loop. -/
def c6Cfg : Cfg := { n := 1, slots := 1, buckets := 1, remapEnabled := true }

/-- An eviction-loop state whose eviction counter (11) already exceeds
`10 * slots = 10` but is not a power of two: one pending singleton bucket and
a free slot. -/
def c6St : EvSt :=
  { pilots := [0], taken := [false], slotsArr := [none], stack := [(1, 0)]
    evictions := 11, recent := List.replicate 16 none, recentIdx := 0, drawIdx := 0 }

/-- The same pending state with eviction counter 16 = 2⁴ ≥ 10 · slots, on
which the failure detection does fire. -/
def c6StAbort : EvSt :=
  { pilots := [0], taken := [false], slotsArr := [none], stack := [(1, 0)]
    evictions := 16, recent := List.replicate 16 none, recentIdx := 0, drawIdx := 0 }

/-- A part configuration on which the pilot search reaches the slow path: 30
slots, 32 buckets. -/
def c10Cfg : Cfg := { n := 30, slots := 30, buckets := 32, remapEnabled := true }

/-- A global seed under which `c10Hashes` force one slow-path placement. -/
def c10Seed : Nat := 13430196648335569400

/-- Thirty 64-bit hashes: 29 singleton buckets fill 29 of the 30 slots, and
the hash of the last-processed bucket (index 31) collides with a taken slot
under every pilot, forcing the slow path and one eviction. -/
def c10Hashes : List Nat :=
  [515491811151, 576461438751099583, 1152922149006886920, 1729382553932170955,
   2305843683986367371, 2882303779781472779, 3458765392817535823, 4035226012776498902,
   4611686916695215417, 5188147335559327963, 5764608391802615485, 6341068746619509738,
   6917529572371329508, 7493990792989114210, 8070451365498858125, 8646911765952994631,
   9223372064537215700, 9799833316620570375, 10376293593857866110, 10952754808185088167,
   11529215426218870164, 12105676574404238099, 12682137586257386285, 13258598400638390561,
   13835058577915753083, 14411519674727511120, 14987980072072238959, 15564441005059595786,
   16140901856852758069, 17870284055247208043]

/-!
## Theorems

Helper lemmas first, then one theorem per claim (with witnesses and
counterexamples as required).
-/

/-- A number that is even because it is a power of two other than one. -/
theorem isPow2_even {n : Nat} (h : isPow2 n = true) (h1 : n ≠ 1) : n % 2 = 0 := by
  match n with
  | 0 => simp [isPow2, isPow2Go] at h
  | 1 => exact absurd rfl h1
  | n + 2 =>
    have hu : isPow2 (n + 2) = ((n + 2) % 2 == 0 && isPow2Go (n + 1) ((n + 2) / 2)) := rfl
    rw [hu] at h
    rcases (Bool.and_eq_true _ _).mp h with ⟨h2, _⟩
    simpa using h2

/-- An odd number other than one is not a power of two. -/
theorem isPow2_odd_false {n : Nat} (h : n % 2 = 1) (h1 : n ≠ 1) : isPow2 n = false := by
  match n with
  | 0 => simp at h
  | 1 => exact absurd rfl h1
  | n + 2 =>
    have hu : isPow2 (n + 2) = ((n + 2) % 2 == 0 && isPow2Go (n + 1) ((n + 2) / 2)) := rfl
    rw [hu]
    have h2 : ((n + 2) % 2 == 0) = false := by rw [h]; rfl
    rw [h2, Bool.false_and]

/-- The seed-retry loop tries exactly the next `r` seeds of the stream, in
order, and returns the first success. -/
theorem computePilotsGo_eq_findSome (cfg : Cfg) (keys : List Nat) (seeds : Nat → Nat)
    (draws : List Nat) (fuel : Nat) :
    ∀ r i, computePilotsGo cfg keys seeds draws fuel r i =
      (List.range r).findSome? (fun j => attempt cfg keys (seeds (i + j)) draws fuel) := by
  intro r
  induction r with
  | zero => intro i; rfl
  | succ r ih =>
    intro i
    rw [List.range_succ_eq_map, List.findSome?_cons]
    unfold computePilotsGo
    cases h : attempt cfg keys (seeds i) draws fuel with
    | some ph => simp [h]
    | none =>
      have hi : i + 0 = i := rfl
      rw [hi, h, ih (i + 1), List.findSome?_map]
      simp only
      congr 1
      funext j
      simp only [Function.comp, Nat.succ_eq_add_one]
      congr 2
      omega

/-- C7: building from an empty key set returns the `EmptyKeySet` error,
detected at entry of `new_with_hasher`, and only then: nonempty data goes on
to build. -/
theorem c7_empty_key_set (data : List (Nat × Nat)) (seeds : Nat → Nat)
    (draws : List Nat) (fuel : Nat) :
    newWithHasher data seeds draws fuel = Except.error KvError.emptyKeySet ↔ data = [] := by
  unfold newWithHasher
  cases data <;> simp

/-- C3: `try_new` retries with fresh seeds up to 10 attempts in total and
returns the first success; it consults exactly the seeds of attempts
`0, …, 9` and returns `None` (rather than panicking or looping) when all ten
fail.  The `ChaCha8Rng` seed source is modelled as the stream `seeds`. -/
theorem c3_try_new_seed_budget (keys : List Nat) (seeds : Nat → Nat) (draws : List Nat)
    (fuel : Nat) :
    tryNew keys seeds draws fuel =
      (mkCfg keys.length).bind
        (fun cfg => (List.range 10).findSome? fun i => attempt cfg keys (seeds i) draws fuel) := by
  unfold tryNew
  cases h : mkCfg keys.length with
  | none => rfl
  | some cfg =>
    show computePilotsGo cfg keys seeds draws fuel 10 0 = _
    rw [computePilotsGo_eq_findSome]
    simp [Nat.zero_add]

/-- C5 counterexample: `init` truncates `keys_per_part / alpha` instead of
taking its ceiling (`keys_per_part = 3`, `alpha = 0.99`: code 3, ceiling 4),
and for `keys_per_part = 1` the computed `slots_per_part` is 2, a power of
two. -/
theorem c5_counterexample :
    slotsPerPart 3 99 100 ≠ (3 * 100 + 99 - 1) / 99 ∧
    isPow2 (slotsPerPart 1 99 100) = true := by decide

/-- C5 (amended): `slots_per_part` is the truncation of
`keys_per_part / alpha`, incremented when that truncation is a power of two;
the result is never a power of two unless the truncation is 1, in which case
the result is 2. -/
theorem c5_slots_not_power_of_two (kpp aN aD : Nat) :
    (kpp * aD / aN ≠ 1 → isPow2 (slotsPerPart kpp aN aD) = false) ∧
    (kpp * aD / aN = 1 → slotsPerPart kpp aN aD = 2) := by
  refine ⟨fun h => ?_, fun h => ?_⟩
  · unfold slotsPerPart
    by_cases hp : isPow2 (kpp * aD / aN) = true
    · rw [if_pos hp]
      have h0 : kpp * aD / aN ≠ 0 := by
        intro h0; rw [h0] at hp; simp [isPow2, isPow2Go] at hp
      have he : kpp * aD / aN % 2 = 0 := isPow2_even hp h
      apply isPow2_odd_false
      · omega
      · omega
    · rw [if_neg hp]
      exact Bool.eq_false_iff.mpr hp
  · unfold slotsPerPart
    rw [h]
    decide

/-- C5 witness: the amended statement at `keys_per_part = 3`. -/
theorem c5_witness :
    (3 * 100 / 99 ≠ 1) ∧ isPow2 (slotsPerPart 3 99 100) = false :=
  ⟨by decide, (c5_slots_not_power_of_two 3 99 100).1 (by decide)⟩

/-- C6 counterexample: an eviction-loop state whose eviction counter 11
already exceeds `10 · slots_per_part = 10`, yet the loop does not abort (the
counter is not a power of two, so the failure-detection guard of build.rs
line 148 skips the check) and the pending bucket is placed successfully. -/
theorem c6_counterexample :
    10 * c6Cfg.slots < c6St.evictions ∧ (heapPop c6St.stack).isSome = true ∧
    evictLoop c6Cfg 0 (fun _ => [0]) 1 [] 2 c6St ≠ none ∧
    abortCheck c6Cfg.slots c6St.evictions = false := by decide

/-- C6 (amended): the part is declared unsolvable exactly when, upon popping
a pending bucket, the eviction counter is a power of two exceeding
`slots_per_part` and at least `10 · slots_per_part` (the `abortCheck`
condition); merely exceeding `10 · slots_per_part` does not abort. -/
theorem c6_abort_on_check (cfg : Cfg) (seed : Nat) (bh : Nat → List Nat) (newBLen : Nat)
    (draws : List Nat) (fuel : Nat) (st : EvSt) (pr : (Nat × Nat) × List (Nat × Nat))
    (hpop : heapPop st.stack = some pr)
    (habort : abortCheck cfg.slots st.evictions = true) :
    evictLoop cfg seed bh newBLen draws (fuel + 1) st = none := by
  unfold evictLoop
  rw [hpop]
  obtain ⟨⟨bl, b⟩, stack1⟩ := pr
  simp [habort]

/-- C6 witness: with eviction counter 16 = 2⁴ ≥ 10 · 1 the loop aborts. -/
theorem c6_witness :
    heapPop c6StAbort.stack = some ((1, 0), []) ∧
    abortCheck c6Cfg.slots c6StAbort.evictions = true ∧
    evictLoop c6Cfg 0 (fun _ => [0]) 1 [] 1 c6StAbort = none :=
  ⟨by decide, by decide,
    c6_abort_on_check c6Cfg 0 (fun _ => [0]) 1 [] 0 c6StAbort ((1, 0), [])
      (by decide) (by decide)⟩

/-- C9 counterexample: for `n = 10⁹` keys with the default `alpha = 0.99` and
`lambda = 3.5` (the claim's bound), `init` with the parts count 1325 computed
by its heuristic hits the `OVERFLOW PREVENTION` panic on `buckets_total`
instead of succeeding. -/
theorem c9_counterexample :
    initDerive 1000000000 1325 99 100 7 2 = InitOutcome.bucketsOverflow := by decide

/-- C9 (amended): building 10⁹ keys cannot succeed for any parts count the
heuristic could produce (any `1 ≤ parts ≤ 10⁶`) and any `lambda ≤ 3.5`:
`buckets_total` always exceeds the 10⁸ overflow-prevention limit, so `init`
panics before construction starts. -/
theorem c9_billion_keys_panics (parts lamN lamD : Nat) (hp1 : 1 ≤ parts)
    (hp2 : parts ≤ 1000000) (hl1 : 0 < lamN) (_hl2 : 0 < lamD)
    (hl : 2 * lamN ≤ 7 * lamD) :
    initDerive 1000000000 parts 99 100 lamN lamD = InitOutcome.bucketsOverflow := by
  have hA : 999000000 < parts * (1000000000 / parts) := by
    have hdm := Nat.div_add_mod 1000000000 parts
    have hmod : 1000000000 % parts < parts := Nat.mod_lt _ (by omega)
    generalize parts * (1000000000 / parts) = A at hdm ⊢
    omega
  have hq : ∀ b : Nat, b ≤ lamN * ((b + (lamN - 1)) / lamN) := by
    intro b
    have hdm := Nat.div_add_mod (b + (lamN - 1)) lamN
    have hmod : (b + (lamN - 1)) % lamN < lamN := Nat.mod_lt _ hl1
    generalize lamN * ((b + (lamN - 1)) / lamN) = T at hdm ⊢
    omega
  set kpp := 1000000000 / parts with hkpp
  set q := (kpp * lamD + (lamN - 1)) / lamN with hqdef
  have hq1 : kpp * lamD ≤ lamN * q := hq (kpp * lamD)
  have hchain : 2 * (parts * kpp) ≤ 7 * (parts * q) := by
    have h1 : parts * (kpp * lamD) ≤ parts * (lamN * q) := Nat.mul_le_mul_left _ hq1
    have h2 : lamN * (2 * (parts * kpp)) ≤ lamN * (7 * (parts * q)) := by
      calc lamN * (2 * (parts * kpp)) = (2 * lamN) * (parts * kpp) := by ring
        _ ≤ (7 * lamD) * (parts * kpp) := Nat.mul_le_mul_right _ hl
        _ = 7 * (parts * (kpp * lamD)) := by ring
        _ ≤ 7 * (parts * (lamN * q)) := Nat.mul_le_mul_left _ h1
        _ = lamN * (7 * (parts * q)) := by ring
    exact Nat.le_of_mul_le_mul_left h2 hl1
  have hgoal : 100000000 < parts * (q + 3) := by
    have h3 : parts * q ≤ parts * (q + 3) := Nat.mul_le_mul_left _ (by omega)
    generalize parts * kpp = A at hA hchain
    generalize parts * q = PQ at hchain h3
    generalize parts * (q + 3) = X at h3 ⊢
    omega
  unfold initDerive bucketsPerPart
  rw [if_pos]
  exact hgoal

/-- C9 witness: the amended statement at the heuristic's parts count 1325 and
`lambda = 3.5`. -/
theorem c9_witness :
    (1 ≤ 1325 ∧ 1325 ≤ 1000000 ∧ 2 * 7 ≤ 7 * 2) ∧
    initDerive 1000000000 1325 99 100 7 2 = InitOutcome.bucketsOverflow :=
  ⟨by decide, c9_billion_keys_panics 1325 7 2 (by decide) (by decide) (by decide)
    (by decide) (by decide)⟩

set_option maxRecDepth 40000 in
/-- C2: a failing input for the claim that queries never read out of bounds.
The pipeline built from the key set `{2}` (seed stream `0, 0, …`) yields an
index with an empty remap table although `slots_total - n = 1`; querying the
absent key `1` computes slot `1 ≥ n`, and the remap read
`remap.index(1 - 1)` — `get_unchecked(0)` on an empty `Vec<u32>` — is out of
bounds, contradicting the claimed in-bounds guarantee. -/
theorem c2_out_of_bounds_read :
    tryNew [2] (fun _ => 0) [] 100 = some phKeys2 ∧
    phKeys2.cfg.n ≤ indexNoRemap phKeys2 1 ∧
    indexNoRemap phKeys2 1 - phKeys2.cfg.n ≥ phKeys2.remap.length ∧
    indexChecked phKeys2 1 = none := by decide

set_option maxRecDepth 40000 in
/-- C4 counterexample: a successful build with remapping enabled and
`slots_total > n` whose remap table is empty rather than having
`slots_total - n = 1` entries: the single key of `{2}` occupies slot 0, so no
overflow slot is taken and the construction of lib.rs lines 670-686 pushes
nothing. -/
theorem c4_counterexample :
    tryNew [2] (fun _ => 0) [] 100 = some phKeys2 ∧
    phKeys2.cfg.remapEnabled = true ∧
    phKeys2.cfg.n < phKeys2.cfg.slots ∧
    phKeys2.remap.length ≠ phKeys2.cfg.slots - phKeys2.cfg.n := by decide

set_option maxRecDepth 40000 in
/-- C10 counterexample: two runs of `build_part` on the identical part, hash
slice and global seed, differing only in the `fastrand` draw used for the
slow-path start offset `p0` (3 versus 200), produce different pilots arrays
(both runs succeed; the slow path is reached once). -/
theorem c10_counterexample :
    buildPart c10Cfg c10Seed c10Hashes [3] 200 ≠
      buildPart c10Cfg c10Seed c10Hashes [200] 200 := by decide

/-- Placement never consumes rng draws. -/
theorem placeSlots_drawIdx {cfg : Cfg} {seed : Nat} {bh : Nat → List Nat} {b : Nat} :
    ∀ {ss : List Nat} {st st2 : EvSt}, placeSlots cfg seed bh b ss st = some st2 →
      st2.drawIdx = st.drawIdx := by
  intro ss
  induction ss with
  | nil => intro st st2 h; cases h; rfl
  | cons s rest ih =>
    intro st st2 h
    unfold placeSlots at h
    split at h
    · simpa using ih h
    · split at h
      · cases h
      · simpa using ih h

/-- The draw counter never decreases along the eviction loop. -/
theorem evictLoop_drawIdx_mono {cfg : Cfg} {seed : Nat} {bh : Nat → List Nat}
    {newBLen : Nat} {draws : List Nat} :
    ∀ {fuel : Nat} {st st2 : EvSt},
      evictLoop cfg seed bh newBLen draws fuel st = some st2 →
      st.drawIdx ≤ st2.drawIdx := by
  intro fuel
  induction fuel with
  | zero => intro st st2 h; cases h
  | succ fuel ih =>
    intro st st2 h
    unfold evictLoop at h
    split at h
    · cases h; exact Nat.le_refl _
    · split at h
      · cases h
      · split at h
        · have h4 := ih h
          simpa using h4
        · split at h
          · cases h
          · split at h
            · cases h
            · next st3 hpl =>
              have h3 := placeSlots_drawIdx hpl
              have h4 := ih h
              simp at h3 h4
              omega

/-- A run of the eviction loop that consumes no rng draw is unchanged when
the draw stream is replaced. -/
theorem evictLoop_det_of_no_draw {cfg : Cfg} {seed : Nat} {bh : Nat → List Nat}
    {newBLen : Nat} {draws1 draws2 : List Nat} :
    ∀ {fuel : Nat} {st st2 : EvSt},
      evictLoop cfg seed bh newBLen draws1 fuel st = some st2 →
      st2.drawIdx = st.drawIdx →
      evictLoop cfg seed bh newBLen draws2 fuel st = some st2 := by
  intro fuel
  induction fuel with
  | zero => intro st st2 h; cases h
  | succ fuel ih =>
    intro st st2 h hd
    unfold evictLoop at h ⊢
    split at h
    · exact h
    · split at h
      · cases h
      · next ha =>
        rw [if_neg ha]
        split at h
        · exact ih h hd
        · exfalso
          split at h
          · cases h
          · split at h
            · cases h
            · next st3 hpl =>
              have h3 := placeSlots_drawIdx hpl
              have h4 := evictLoop_drawIdx_mono h
              simp at h3 h4
              rw [hd] at h4
              omega

/-- The draw counter never decreases along the outer bucket loop. -/
theorem buildPartGo_drawIdx_mono {cfg : Cfg} {seed : Nat} {bh : Nat → List Nat}
    {draws : List Nat} {fuel : Nat} :
    ∀ {order : List Nat} {st st2 : EvSt},
      buildPartGo cfg seed bh draws fuel order st = some st2 →
      st.drawIdx ≤ st2.drawIdx := by
  intro order
  induction order with
  | nil => intro st st2 h; cases h; exact Nat.le_refl _
  | cons newB rest ih =>
    intro st st2 h
    unfold buildPartGo at h
    split at h
    · have h2 := ih h
      simpa using h2
    · split at h
      · cases h
      · next st3 hev =>
        have h1 := evictLoop_drawIdx_mono hev
        have h2 := ih h
        simp at h1
        omega

/-- A run of the outer bucket loop that consumes no rng draw is unchanged
when the draw stream is replaced. -/
theorem buildPartGo_det_of_no_draw {cfg : Cfg} {seed : Nat} {bh : Nat → List Nat}
    {draws1 draws2 : List Nat} {fuel : Nat} :
    ∀ {order : List Nat} {st st2 : EvSt},
      buildPartGo cfg seed bh draws1 fuel order st = some st2 →
      st2.drawIdx = st.drawIdx →
      buildPartGo cfg seed bh draws2 fuel order st = some st2 := by
  intro order
  induction order with
  | nil => intro st st2 h _; exact h
  | cons newB rest ih =>
    intro st st2 h hd
    unfold buildPartGo at h ⊢
    split at h
    · next he =>
      rw [if_pos he]
      exact ih h (by simpa using hd)
    · next he =>
      rw [if_neg he]
      split at h
      · cases h
      · next st3 hev =>
        have h1 := evictLoop_drawIdx_mono hev
        have h2 := buildPartGo_drawIdx_mono h
        simp at h1
        have h3 : st3.drawIdx = st.drawIdx := by omega
        rw [evictLoop_det_of_no_draw hev (by simpa using h3)]
        exact ih h (by omega)

/-- C10 (amended): the pilot assignment of `build_part` is a deterministic
function of the part's hashes, the global seed, and the per-part `fastrand`
draws; in particular, whenever a run consumes no rng draw (the slow path is
never reached), the result is independent of the draw stream.  Runs that do
reach the slow path may differ across executions because `fastrand::Rng::new`
is entropy-seeded (see the counterexample). -/
theorem c10_deterministic_without_draws (cfg : Cfg) (seed : Nat)
    (hashes draws1 draws2 : List Nat) (fuel : Nat)
    (res : List Nat × List Bool × Nat)
    (h : buildPart cfg seed hashes draws1 fuel = some res)
    (hz : res.2.2 = 0) :
    buildPart cfg seed hashes draws2 fuel = some res := by
  unfold buildPart at h ⊢
  cases hgo : buildPartGo cfg seed (bucketHashes cfg hashes) draws1 fuel
      (bucketOrder (fun b => (bucketHashes cfg hashes b).length) cfg.buckets)
      { pilots := List.replicate cfg.buckets 0, taken := List.replicate cfg.slots false,
        slotsArr := List.replicate cfg.slots none, stack := [], evictions := 0,
        recent := List.replicate 16 none, recentIdx := 0, drawIdx := 0 } with
  | none => rw [hgo] at h; cases h
  | some st =>
    rw [hgo] at h
    cases h
    simp at hz
    rw [buildPartGo_det_of_no_draw hgo (by simp [hz])]

/-- C10 witness: a draw-free build is reproduced bit-identically under a
different draw stream. -/
theorem c10_witness :
    buildPart c6Cfg 0 [0] [] 5 = some ([0], [true], 0) ∧
    buildPart c6Cfg 0 [0] [7, 8, 9] 5 = some ([0], [true], 0) :=
  ⟨by decide,
    c10_deterministic_without_draws c6Cfg 0 [0] [] [7, 8, 9] 5 ([0], [true], 0)
      (by decide) (by decide)⟩

/-- Reading a just-set position of a list. -/
theorem getD_set_self {α : Type} {l : List α} {i : Nat} (h : i < l.length) (v d : α) :
    (l.set i v).getD i d = v := by
  simp [List.getD_eq_getElem?_getD, List.getElem?_set_self, h]

/-- Reading another position of a just-set list. -/
theorem getD_set_ne {α : Type} {l : List α} {i j : Nat} (h : i ≠ j) (v d : α) :
    (l.set i v).getD j d = l.getD j d := by
  simp [List.getD_eq_getElem?_getD, List.getElem?_set_ne h]

/-- Mapping a function over positions of a list via `getD` is mapping over
the list. -/
theorem range_map_getD {α β : Type} (d : α) (f : α → β) :
    ∀ l : List α, (List.range l.length).map (fun j => f (l.getD j d)) = l.map f := by
  intro l
  induction l with
  | nil => rfl
  | cons a t ih =>
    show (List.range (t.length + 1)).map _ = _
    rw [List.range_succ_eq_map, List.map_cons, List.map_map]
    simp only [List.getD_cons_zero, List.getD_cons_succ, Function.comp, List.map_cons]
    rw [← ih]
    rfl

/-- The flush loop emits the `count` buffered ring entries starting at
position `i`. -/
theorem streamFlush_eq (ph : PH) (B : Nat) (ring : List Nat) :
    ∀ (count i : Nat), streamFlush ph B ring i count =
      (List.range count).map (fun j => streamEmit ph (ring.getD ((i + j) % B) 0)) := by
  intro count
  induction count with
  | zero => intro i; rfl
  | succ c ih =>
    intro i
    show streamEmit ph (ring.getD (i % B) 0) :: streamFlush ph B ring (i + 1) c = _
    rw [List.range_succ_eq_map, List.map_cons, List.map_map, ih (i + 1)]
    congr 1
    apply List.map_congr_left
    intro j _
    simp only [Function.comp, Nat.succ_eq_add_one]
    have hij : i + 1 + j = i + (j + 1) := by omega
    rw [hij]

/-- The main stream loop: with the ring holding the queue `Q` of buffered
hashes (entry `j` of the queue at ring position `(i + j) % B`), folding over
`rest` emits the indices of the first `rest.length` entries of
`Q ++ hashes of rest` and leaves the remaining `B` entries buffered. -/
theorem streamMain_spec (ph : PH) (B : Nat) (hB : 0 < B) :
    ∀ (rest ring : List Nat) (i : Nat) (Q : List Nat),
      ring.length = B → Q.length = B →
      (∀ j, j < B → ring.getD ((i + j) % B) 0 = Q.getD j 0) →
      ∃ ringF,
        streamMain ph B rest ring i =
          (((Q ++ rest.map (fun k => fastIntHash k ph.seed)).take rest.length).map
              (streamEmit ph),
            ringF, i + rest.length) ∧
        ringF.length = B ∧
        ∀ j, j < B → ringF.getD ((i + rest.length + j) % B) 0 =
          ((Q ++ rest.map (fun k => fastIntHash k ph.seed)).drop rest.length).getD j 0 := by
  intro rest
  induction rest with
  | nil =>
    intro ring i Q hr hq hring
    refine ⟨ring, ?_, hr, ?_⟩
    · simp [streamMain]
    · intro j hj
      simpa using hring j hj
  | cons k rest ih =>
    intro ring i Q hr hq hring
    cases Q with
    | nil => simp at hq; omega
    | cons q0 Qt =>
      have hQt : Qt.length = B - 1 := by simp at hq; omega
      have hmodlt : i % B < B := Nat.mod_lt _ hB
      have hrec : ∀ j, j < B →
          (ring.set (i % B) (fastIntHash k ph.seed)).getD ((i + 1 + j) % B) 0 =
          (Qt ++ [fastIntHash k ph.seed]).getD j 0 := by
        intro j hj
        by_cases hlast : j = B - 1
        · have h1 : (i + 1 + j) % B = i % B := by
            rw [hlast]
            have h2 : i + 1 + (B - 1) = i + B := by omega
            rw [h2, Nat.add_mod_right]
          rw [h1, getD_set_self (by rw [hr]; exact hmodlt)]
          rw [List.getD_append_right _ _ _ _ (by omega)]
          have h3 : j - Qt.length = 0 := by omega
          rw [h3]
          rfl
        · have hjlt : j < B - 1 := by omega
          have h1 : (i + 1 + j) % B ≠ i % B := by
            have e1 : (i + 1 + j) % B = (i % B + (1 + j)) % B := by
              conv_lhs => rw [show i + 1 + j = i + (1 + j) by omega, Nat.add_mod,
                Nat.mod_eq_of_lt (show 1 + j < B by omega)]
            rw [e1]
            by_cases h2 : i % B + (1 + j) < B
            · rw [Nat.mod_eq_of_lt h2]; omega
            · rw [Nat.mod_eq_sub_mod (by omega), Nat.mod_eq_of_lt (by omega)]
              omega
          rw [getD_set_ne (fun he => h1 he.symm)]
          have h3 := hring (j + 1) (by omega)
          rw [show i + (j + 1) = i + 1 + j by omega] at h3
          rw [h3, List.getD_cons_succ]
          rw [List.getD_append _ _ _ _ (by omega)]
      obtain ⟨ringF, hmain, hlen, hfin⟩ := ih (ring.set (i % B) (fastIntHash k ph.seed))
        (i + 1) (Qt ++ [fastIntHash k ph.seed]) (by simpa using hr)
        (by simp; omega) hrec
      have hsplit : (q0 :: Qt) ++ (k :: rest).map (fun k => fastIntHash k ph.seed) =
          q0 :: ((Qt ++ [fastIntHash k ph.seed]) ++
            rest.map (fun k => fastIntHash k ph.seed)) := by
        simp
      refine ⟨ringF, ?_, hlen, ?_⟩
      · show (streamEmit ph (ring.getD (i % B) 0) :: (streamMain ph B rest
            (ring.set (i % B) (fastIntHash k ph.seed)) (i + 1)).1,
          (streamMain ph B rest (ring.set (i % B) (fastIntHash k ph.seed)) (i + 1)).2.1,
          (streamMain ph B rest (ring.set (i % B) (fastIntHash k ph.seed)) (i + 1)).2.2) = _
        rw [hmain]
        have hcur : ring.getD (i % B) 0 = q0 := by
          have h0 := hring 0 hB
          simpa using h0
        rw [hcur, hsplit]
        simp only [List.length_cons, List.take_succ_cons, List.map_cons, Prod.mk.injEq]
        refine ⟨?_, ?_, ?_⟩ <;> first | trivial | omega
      · intro j hj
        have hf := hfin j hj
        rw [hsplit]
        simp only [List.length_cons, List.drop_succ_cons]
        rw [show i + (rest.length + 1) + j = i + 1 + rest.length + j by omega]
        exact hf

/-- Twice the sum of `0, …, n-1` is `n · (n-1)`. -/
theorem range_sum_twice : ∀ n : Nat, (List.range n).sum * 2 = n * (n - 1) := by
  intro n
  induction n with
  | zero => rfl
  | succ n ih =>
    rw [List.range_succ, List.sum_append, List.sum_cons, List.sum_nil, Nat.add_zero,
      Nat.succ_sub_one]
    cases n with
    | zero => rfl
    | succ m =>
      rw [Nat.add_mul, ih, Nat.succ_sub_one]
      ring

/-- The sum of `0, …, n-1` is the triangle number `n · (n-1) / 2`. -/
theorem range_sum_eq (n : Nat) : (List.range n).sum = n * (n - 1) / 2 :=
  (Nat.div_eq_of_eq_mul_left (by omega) (range_sum_twice n).symm).symm

/-- C8: for any positive buffer size `B`, consuming `index_stream::<B, true>`
through its `fold` yields exactly one output per input key, equal to
`index(k)` for the corresponding key in order; consequently, when the indices
of the streamed keys form a permutation of `0, …, n-1` (as they do for the
full original key set), the streamed sum is the triangle number
`n·(n-1)/2`. -/
theorem c8_stream_matches_index (ph : PH) (B : Nat) (keys : List Nat) (hB : 0 < B) :
    streamIndices ph B keys = keys.map (index ph) ∧
    ((keys.map (index ph)).Perm (List.range ph.cfg.n) →
      (streamIndices ph B keys).sum = ph.cfg.n * (ph.cfg.n - 1) / 2) := by
  have hprelen : (keys.take B).length ≤ B := by
    rw [List.length_take]
    omega
  have hr0len : ((keys.take B).map (fun k => fastIntHash k ph.seed) ++
      List.replicate (B - (keys.take B).length) 0).length = B := by
    rw [List.length_append, List.length_map, List.length_replicate]
    omega
  have hinit : ∀ j, j < B →
      ((keys.take B).map (fun k => fastIntHash k ph.seed) ++
        List.replicate (B - (keys.take B).length) 0).getD ((0 + j) % B) 0 =
      ((keys.take B).map (fun k => fastIntHash k ph.seed) ++
        List.replicate (B - (keys.take B).length) 0).getD j 0 := by
    intro j hj
    rw [Nat.zero_add, Nat.mod_eq_of_lt hj]
  obtain ⟨ringF, hmaineq, hlenF, hfinF⟩ := streamMain_spec ph B hB (keys.drop B)
    ((keys.take B).map (fun k => fastIntHash k ph.seed) ++
      List.replicate (B - (keys.take B).length) 0) 0
    ((keys.take B).map (fun k => fastIntHash k ph.seed) ++
      List.replicate (B - (keys.take B).length) 0) hr0len hr0len hinit
  have hmain : streamIndices ph B keys = keys.map (index ph) := by
    unfold streamIndices
    rw [hmaineq]
    show _ ++ streamFlush ph B ringF (0 + (keys.drop B).length) (keys.take B).length =
      keys.map (index ph)
    rw [streamFlush_eq]
    have hflush : (List.range (keys.take B).length).map
        (fun j => streamEmit ph (ringF.getD ((0 + (keys.drop B).length + j) % B) 0)) =
        (List.range (keys.take B).length).map (fun j => streamEmit ph
          ((((keys.take B).map (fun k => fastIntHash k ph.seed) ++
            List.replicate (B - (keys.take B).length) 0) ++
            (keys.drop B).map (fun k => fastIntHash k ph.seed)).drop
              (keys.drop B).length |>.getD j 0)) := by
      apply List.map_congr_left
      intro j hjmem
      rw [hfinF j (Nat.lt_of_lt_of_le (List.mem_range.mp hjmem) hprelen)]
    rw [hflush]
    by_cases hlen : keys.length ≤ B
    · have hdrop : keys.drop B = [] := List.drop_eq_nil_of_le hlen
      have htake : keys.take B = keys := List.take_of_length_le hlen
      rw [hdrop, htake]
      simp only [List.length_nil, List.map_nil, List.append_nil, List.take_zero,
        List.map_nil, List.nil_append, List.drop_zero]
      have hcong : (List.range keys.length).map (fun j => streamEmit ph
          ((keys.map (fun k => fastIntHash k ph.seed) ++
            List.replicate (B - keys.length) 0).getD j 0)) =
          (List.range keys.length).map (fun j => streamEmit ph
            ((keys.map (fun k => fastIntHash k ph.seed)).getD j 0)) := by
        apply List.map_congr_left
        intro j hjmem
        rw [List.getD_append _ _ _ _ (by
          rw [List.length_map]
          exact List.mem_range.mp hjmem)]
      rw [hcong]
      have hrm := range_map_getD 0 (streamEmit ph) (keys.map (fun k => fastIntHash k ph.seed))
      rw [List.length_map] at hrm
      rw [hrm, List.map_map]
      rfl
    · have hpreB : (keys.take B).length = B := by
        rw [List.length_take]
        omega
      have hpad : B - (keys.take B).length = 0 := by omega
      rw [hpad]
      simp only [List.replicate_zero, List.append_nil]
      have hjoin : (keys.take B).map (fun k => fastIntHash k ph.seed) ++
          (keys.drop B).map (fun k => fastIntHash k ph.seed) =
          keys.map (fun k => fastIntHash k ph.seed) := by
        rw [← List.map_append, List.take_append_drop]
      rw [hjoin, hpreB]
      have hQFlen : ((keys.map (fun k => fastIntHash k ph.seed)).drop
          (keys.drop B).length).length = B := by
        rw [List.length_drop, List.length_map, List.length_drop]
        omega
      have hrm := range_map_getD 0 (streamEmit ph)
        ((keys.map (fun k => fastIntHash k ph.seed)).drop (keys.drop B).length)
      rw [hQFlen] at hrm
      rw [hrm, ← List.map_append, List.take_append_drop, List.map_map]
      rfl
  refine ⟨hmain, fun hperm => ?_⟩
  rw [hmain, List.Perm.sum_eq hperm, range_sum_eq]

/-- C8 witness: the stream over the five-key example equals the per-key
indices, and its sum is the triangle number 10. -/
theorem c8_witness :
    streamIndices phKeys5 3 [7, 42, 100, 255, 1000] =
      [7, 42, 100, 255, 1000].map (index phKeys5) ∧
    (streamIndices phKeys5 3 [7, 42, 100, 255, 1000]).sum = 5 * (5 - 1) / 2 :=
  ⟨(c8_stream_matches_index phKeys5 3 [7, 42, 100, 255, 1000] (by decide)).1,
    (c8_stream_matches_index phKeys5 3 [7, 42, 100, 255, 1000] (by decide)).2 (by decide)⟩

/-! ### The remap construction: counting helpers -/

/-- The taken positions of a bitmap, counted through `getD` over its index
range, are its `true` entries. -/
theorem filter_range_getD_count (l : List Bool) :
    ((List.range l.length).filter (fun i => l.getD i false)).length = l.count true := by
  induction l with
  | nil => rfl
  | cons b t ih =>
    show ((List.range (t.length + 1)).filter _).length = _
    rw [List.range_succ_eq_map, List.filter_cons, List.count_cons]
    have hmap : (List.map Nat.succ (List.range t.length)).filter
        (fun i => (b :: t).getD i false) =
        ((List.range t.length).filter
          (fun i => ((fun i => (b :: t).getD i false) ∘ Nat.succ) i)).map Nat.succ := by
      rw [List.filter_map]
    rw [hmap]
    have hcomp : ((List.range t.length).filter
        (fun i => ((fun i => (b :: t).getD i false) ∘ Nat.succ) i)) =
        (List.range t.length).filter (fun i => t.getD i false) := by
      apply List.filter_congr
      intro i _
      rfl
    rw [hcomp]
    have ih2 : (List.filter (fun i => t[i]?.getD false) (List.range t.length)).length =
        List.count true t := by
      simpa [List.getD_eq_getElem?_getD] using ih
    cases b with
    | true => simp [List.count_cons, ih2]
    | false => simp [List.count_cons, ih2]

/-- A segment count splits over addition of range lengths. -/
theorem tcb_add (taken : List Bool) (n a b : Nat) :
    tcb taken n (a + b) =
      tcb taken n a +
        ((List.range b).filter (fun t => taken.getD (n + a + t) false)).length := by
  unfold tcb
  rw [List.range_add, List.filter_append, List.length_append]
  congr 1
  rw [List.filter_map]
  rw [List.length_map]
  congr 1
  apply List.filter_congr
  intro t _
  show taken.getD (n + (a + t)) false = taken.getD (n + a + t) false
  rw [Nat.add_assoc]

/-- Extending the segment by one taken position increments the count. -/
theorem tcb_succ_true (taken : List Bool) (n j : Nat)
    (h : taken.getD (n + j) false = true) : tcb taken n (j + 1) = tcb taken n j + 1 := by
  rw [tcb_add taken n j 1]
  congr 1
  show ((List.range 1).filter (fun t => taken.getD (n + j + t) false)).length = 1
  have h1 : taken[n + j]?.getD false = true := by
    rw [← List.getD_eq_getElem?_getD]; exact h
  simp [List.filter, h1]

/-- Extending the segment by one free position keeps the count. -/
theorem tcb_succ_false (taken : List Bool) (n j : Nat)
    (h : taken.getD (n + j) false = false) : tcb taken n (j + 1) = tcb taken n j := by
  rw [tcb_add taken n j 1]
  have h1 : taken[n + j]?.getD false = false := by
    rw [← List.getD_eq_getElem?_getD]; exact h
  have h2 : ((List.range 1).filter (fun t => taken.getD (n + j + t) false)).length = 0 := by
    simp [List.filter, h1]
  omega

/-- Segment counts are monotone. -/
theorem tcb_mono (taken : List Bool) (n : Nat) {a b : Nat} (h : a ≤ b) :
    tcb taken n a ≤ tcb taken n b := by
  obtain ⟨d, rfl⟩ := Nat.le.dest h
  rw [tcb_add]
  omega

/-- A positive segment count yields a taken position in the segment. -/
theorem tcb_pos_exists (taken : List Bool) (n a b : Nat)
    (h : tcb taken n a < tcb taken n (a + b)) :
    ∃ t, t < b ∧ taken.getD (n + a + t) false = true := by
  rw [tcb_add] at h
  have hpos : 0 < ((List.range b).filter (fun t => taken.getD (n + a + t) false)).length := by
    omega
  obtain ⟨t, ht⟩ := List.exists_mem_of_length_pos hpos
  have := List.mem_filter.mp ht
  exact ⟨t, List.mem_range.mp this.1, this.2⟩

/-- A flat segment count means every position in the segment is free. -/
theorem tcb_flat_all_free (taken : List Bool) (n a : Nat)
    (hflat : ∀ b, tcb taken n (a + b) = tcb taken n a) :
    ∀ j, a ≤ j → taken.getD (n + j) false = false := by
  intro j hj
  by_contra hc
  have ht : taken.getD (n + j) false = true := by
    cases h : taken.getD (n + j) false
    · exact absurd h hc
    · rfl
  obtain ⟨d, rfl⟩ := Nat.le.dest hj
  have h1 : tcb taken n (a + d + 1) = tcb taken n (a + d) + 1 := tcb_succ_true _ _ _ ht
  have h2 := hflat d
  have h3 := hflat (d + 1)
  rw [show a + (d + 1) = a + d + 1 by omega] at h3
  omega

/-- `takeWhile` of an append whose first part satisfies the predicate and
whose second part starts by violating it. -/
theorem takeWhile_append_all {p : Nat → Bool} :
    ∀ {l1 l2 : List Nat}, (∀ x ∈ l1, p x = true) → (∀ x ∈ l2, p x = false) →
      (l1 ++ l2).takeWhile p = l1 := by
  intro l1
  induction l1 with
  | nil =>
    intro l2 _ h2
    cases l2 with
    | nil => rfl
    | cons a t =>
      show List.takeWhile p (a :: t) = []
      rw [List.takeWhile_cons, h2 a (List.mem_cons_self a t)]
      simp
  | cons x l1 ih =>
    intro l2 h1 h2
    show List.takeWhile p (x :: (l1 ++ l2)) = x :: l1
    rw [List.takeWhile_cons, h1 x (List.mem_cons_self x l1)]
    simp only [if_true]
    rw [ih (fun y hy => h1 y (List.mem_cons_of_mem x hy)) h2]

/-- The free slots below `n` are exactly the free positions of `0, …, n-1`,
in order. -/
theorem freeLows_eq (taken : List Bool) (n : Nat) (hn : n ≤ taken.length) :
    freeLows taken n = (List.range n).filter (fun i => !taken.getD i false) := by
  unfold freeLows freeList
  rw [show taken.length = n + (taken.length - n) by omega, List.range_add,
    List.filter_append]
  apply takeWhile_append_all
  · intro x hx
    have hmem := List.mem_range.mp (List.mem_of_mem_filter hx)
    exact decide_eq_true hmem
  · intro x hx
    have hmem := List.mem_of_mem_filter hx
    obtain ⟨t, _, rfl⟩ := List.mem_map.mp hmem
    exact decide_eq_false (by omega)

/-- The inner `while` of the remap construction: starting from `v`, it pushes
the free slot `i` once per free overflow position and once more on the first
taken overflow position at or above `n + v.length`, which exists by
assumption. -/
theorem remapWhile_spec (taken : List Bool) (n i : Nat) :
    ∀ (v : List Nat),
      (∃ j, n + v.length ≤ j ∧ j < taken.length ∧ taken.getD j false = true) →
      ∃ d, remapWhile taken n i v = some (v ++ List.replicate (d + 1) i) ∧
        (∀ t, t < d → taken.getD (n + v.length + t) false = false) ∧
        taken.getD (n + v.length + d) false = true ∧
        n + v.length + d < taken.length := by
  have main : ∀ (fuel : Nat) (v : List Nat), taken.length - (n + v.length) ≤ fuel →
      (∃ j, n + v.length ≤ j ∧ j < taken.length ∧ taken.getD j false = true) →
      ∃ d, remapWhile taken n i v = some (v ++ List.replicate (d + 1) i) ∧
        (∀ t, t < d → taken.getD (n + v.length + t) false = false) ∧
        taken.getD (n + v.length + d) false = true ∧
        n + v.length + d < taken.length := by
    intro fuel
    induction fuel with
    | zero =>
      intro v hf hex
      obtain ⟨j, hj1, hj2, _⟩ := hex
      omega
    | succ fuel ih =>
      intro v hf hex
      obtain ⟨j, hj1, hj2, hj3⟩ := hex
      have hin : n + v.length < taken.length := by omega
      unfold remapWhile
      rw [dif_pos hin]
      by_cases ht : taken.get ⟨n + v.length, hin⟩ = true
      · rw [if_pos ht]
        refine ⟨0, rfl, by omega, ?_, by omega⟩
        rw [Nat.add_zero, List.getD_eq_getElem _ _ hin]
        exact ht
      · rw [if_neg ht]
        have htf : taken.getD (n + v.length) false = false := by
          rw [List.getD_eq_getElem _ _ hin]
          cases h : taken.get ⟨n + v.length, hin⟩
          · exact h ▸ rfl
          · exact absurd h ht
        have hne : j ≠ n + v.length := by
          intro he
          rw [he] at hj3
          rw [hj3] at htf
          cases htf
        have hex2 : ∃ j2, n + (v ++ [i]).length ≤ j2 ∧ j2 < taken.length ∧
            taken.getD j2 false = true := by
          refine ⟨j, ?_, hj2, hj3⟩
          rw [List.length_append, List.length_cons, List.length_nil]
          omega
        have hf2 : taken.length - (n + (v ++ [i]).length) ≤ fuel := by
          rw [List.length_append, List.length_cons, List.length_nil]
          omega
        obtain ⟨d, hd1, hd2, hd3, hd4⟩ := ih (v ++ [i]) hf2 hex2
        rw [List.length_append, List.length_cons, List.length_nil] at hd2 hd3 hd4
        refine ⟨d + 1, ?_, ?_, ?_, by omega⟩
        · rw [hd1]
          congr 1
          rw [List.append_assoc]
          congr 1
        · intro t htd
          cases t with
          | zero => rw [Nat.add_zero]; exact htf
          | succ t2 =>
            have := hd2 t2 (by omega)
            rw [show n + v.length + (t2 + 1) = n + (v.length + 1) + t2 by omega]
            exact this
        · rw [show n + v.length + (d + 1) = n + (v.length + 1) + d by omega]
          exact hd3
  intro v hex
  exact main (taken.length - (n + v.length)) v (Nat.le_refl _) hex

/-- The outer remap loop: processing the remaining free slots `fs` (a suffix
of the free-low list `FL`) extends `v` so that, at the end, entry `j` of the
table is the free slot of rank "number of taken overflow positions below
`n + j`", every taken overflow position is covered, and the table ends at the
last taken overflow position. -/
theorem remapGo_spec (taken : List Bool) (n : Nat) (FL : List Nat)
    (htot : tcb taken n (taken.length - n) = FL.length) (hn : n ≤ taken.length) :
    ∀ (fs v : List Nat) (t : Nat),
      t + fs.length = FL.length →
      fs = FL.drop t →
      n + v.length ≤ taken.length →
      tcb taken n v.length = t →
      (∀ j, j < v.length → v.getD j 0 = FL.getD (tcb taken n j) 0) →
      (v.length = 0 ∨ taken.getD (n + v.length - 1) false = true) →
      ∃ vF, remapGo taken n fs v = some vF ∧
        n + vF.length ≤ taken.length ∧
        tcb taken n vF.length = FL.length ∧
        (∀ j, j < vF.length → vF.getD j 0 = FL.getD (tcb taken n j) 0) ∧
        (vF.length = 0 ∨ taken.getD (n + vF.length - 1) false = true) := by
  intro fs
  induction fs with
  | nil =>
    intro v t ht hdrop hvlen htcb hvals hbound
    refine ⟨v, rfl, hvlen, ?_, hvals, hbound⟩
    rw [htcb]
    simpa using ht
  | cons i fs ih =>
    intro v t ht hdrop hvlen htcb hvals hbound
    have htlt : t < FL.length := by
      rw [List.length_cons] at ht
      omega
    have hseg : tcb taken n v.length < tcb taken n (taken.length - n) := by
      rw [htcb, htot]
      exact htlt
    have hvlen2 : v.length ≤ taken.length - n := by omega
    have hex : ∃ j, n + v.length ≤ j ∧ j < taken.length ∧ taken.getD j false = true := by
      have hb : v.length + ((taken.length - n) - v.length) = taken.length - n := by omega
      have hseg2 : tcb taken n v.length <
          tcb taken n (v.length + ((taken.length - n) - v.length)) := by
        rw [hb]
        exact hseg
      obtain ⟨t2, ht2, ht3⟩ := tcb_pos_exists taken n v.length _ hseg2
      exact ⟨n + v.length + t2, by omega, by omega, ht3⟩
    obtain ⟨d, hw1, hw2, hw3, hw4⟩ := remapWhile_spec taken n i v hex
    have hi : i = FL.getD t 0 := by
      have h1 : (FL.drop t).getD 0 0 = FL.getD (t + 0) 0 := by
        rw [List.getD_eq_getElem?_getD, List.getD_eq_getElem?_getD, List.getElem?_drop]
      rw [← hdrop] at h1
      simpa using h1
    have hflat : ∀ t2, t2 ≤ d →
        tcb taken n (v.length + t2) = tcb taken n v.length := by
      intro t2
      induction t2 with
      | zero => intro _; rw [Nat.add_zero]
      | succ t3 ih3 =>
        intro h3
        rw [show v.length + (t3 + 1) = (v.length + t3) + 1 by omega]
        rw [tcb_succ_false taken n (v.length + t3) (by
          rw [show n + (v.length + t3) = n + v.length + t3 by omega]
          exact hw2 t3 (by omega))]
        exact ih3 (by omega)
    have hlen' : (v ++ List.replicate (d + 1) i).length = v.length + (d + 1) := by
      rw [List.length_append, List.length_replicate]
    have htcb' : tcb taken n (v.length + (d + 1)) = t + 1 := by
      rw [show v.length + (d + 1) = (v.length + d) + 1 by omega]
      rw [tcb_succ_true taken n (v.length + d) (by
        rw [show n + (v.length + d) = n + v.length + d by omega]
        exact hw3)]
      rw [hflat d (Nat.le_refl d), htcb]
    have hvals' : ∀ j, j < v.length + (d + 1) →
        (v ++ List.replicate (d + 1) i).getD j 0 = FL.getD (tcb taken n j) 0 := by
      intro j hj
      by_cases hjv : j < v.length
      · rw [List.getD_append _ _ _ _ hjv]
        exact hvals j hjv
      · rw [List.getD_append_right _ _ _ _ (by omega)]
        have hrep : (List.replicate (d + 1) i).getD (j - v.length) 0 = i := by
          rw [List.getD_eq_getElem _ _ (by
            rw [List.length_replicate]
            omega)]
          simp
        rw [hrep]
        have hj2 : j = v.length + (j - v.length) := by omega
        rw [hj2, hflat (j - v.length) (by omega), htcb]
        exact hi
    have hrec := ih (v ++ List.replicate (d + 1) i) (t + 1)
      (by rw [List.length_cons] at ht; omega)
      (by
        have h2 : FL.drop (t + 1) = List.drop 1 (FL.drop t) := by
          rw [List.drop_drop]
        rw [h2, ← hdrop]
        rfl)
      (by rw [hlen']; omega)
      (by rw [hlen']; exact htcb')
      (by rw [hlen']; exact hvals')
      (by
        right
        rw [hlen', show n + (v.length + (d + 1)) - 1 = n + v.length + d by omega]
        exact hw3)
    obtain ⟨vF, hF1, hF2, hF3, hF4, hF5⟩ := hrec
    refine ⟨vF, ?_, hF2, hF3, hF4, hF5⟩
    show (match remapWhile taken n i v with
      | none => none
      | some v1 => remapGo taken n fs v1) = some vF
    rw [hw1]
    exact hF1

/-- Partitioning `range n` by a Boolean predicate. -/
theorem length_filter_partition (n : Nat) (p : Nat → Bool) :
    ((List.range n).filter p).length + ((List.range n).filter (fun i => !p i)).length = n := by
  have h := List.length_eq_countP_add_countP p (List.range n)
  rw [List.countP_eq_length_filter, List.countP_eq_length_filter, List.length_range] at h
  rw [show (fun a => decide ¬p a = true) = (fun i => !p i) from funext (fun a => by simp)] at h
  omega

/-- Counting the free positions of a bitmap through `range`/`filter`. -/
theorem filter_range_getD_count_false (l : List Bool) :
    ((List.range l.length).filter (fun i => !l.getD i false)).length = l.count false := by
  have h1 : ((List.range l.length).filter (fun i => l.getD i false)).length +
      ((List.range l.length).filter (fun i => !l.getD i false)).length = l.length :=
    length_filter_partition l.length (fun i => l.getD i false)
  have h2 := filter_range_getD_count l
  have h3 := List.count_true_add_count_false l
  omega

/-- A filtered range count splits at an inner point. -/
theorem range_filter_split (n b : Nat) (p : Nat → Bool) :
    ((List.range (n + b)).filter p).length =
      ((List.range n).filter p).length +
        ((List.range b).filter (fun t => p (n + t))).length := by
  rw [List.range_add, List.filter_append, List.length_append]
  congr 1
  rw [List.filter_map, List.length_map]
  have hc : (p ∘ fun x => n + x) = (fun t => p (n + t)) := rfl
  rw [hc]

/-- The segment count is constant past the end of the bitmap. -/
theorem tcb_stable_beyond (taken : List Bool) (n m : Nat)
    (h : taken.length - n ≤ m) :
    tcb taken n m = tcb taken n (taken.length - n) := by
  obtain ⟨b, hb⟩ := Nat.le.dest h
  rw [← hb, tcb_add]
  have hnil : ((List.range b).filter
      (fun t => taken.getD (n + (taken.length - n) + t) false)).length = 0 := by
    rw [List.length_eq_zero]
    apply List.filter_eq_nil_iff.mpr
    intro a _
    rw [List.getD_eq_default _ _ (by omega)]
    simp
  omega

/-- lib.rs `remap_free_slots`, remapping enabled with overflow slots present:
the table succeeds, stays within the overflow range, ends at the last taken
overflow slot (every later overflow slot is free), and entry `j` is the free
slot of rank "number of taken overflow slots below `n + j`". -/
theorem remapFreeSlots_spec (cfg : Cfg) (taken : List Bool)
    (hlen : taken.length = cfg.slots)
    (hcount : countFalse taken = cfg.slots - cfg.n)
    (hen : cfg.remapEnabled = true) (hlt : cfg.n < cfg.slots) :
    ∃ v, remapFreeSlots cfg taken = some v ∧
      cfg.n + v.length ≤ cfg.slots ∧
      tcb taken cfg.n v.length = (freeLows taken cfg.n).length ∧
      (∀ j, j < v.length →
        v.getD j 0 = (freeLows taken cfg.n).getD (tcb taken cfg.n j) 0) ∧
      (v.length = 0 ∨ taken.getD (cfg.n + v.length - 1) false = true) ∧
      (∀ j, cfg.n + v.length ≤ j → taken.getD j false = false) := by
  have hnle : cfg.n ≤ taken.length := by omega
  have fsplit : ((List.range (cfg.n + (taken.length - cfg.n))).filter
      (fun i => taken.getD i false)).length =
      ((List.range cfg.n).filter (fun i => taken.getD i false)).length +
        ((List.range (taken.length - cfg.n)).filter
          (fun t => taken.getD (cfg.n + t) false)).length :=
    range_filter_split cfg.n (taken.length - cfg.n) (fun i => taken.getD i false)
  rw [show cfg.n + (taken.length - cfg.n) = taken.length by omega] at fsplit
  have f2 : ((List.range taken.length).filter
      (fun i => taken.getD i false)).length = taken.count true :=
    filter_range_getD_count taken
  have ffalse : ((List.range cfg.n).filter (fun i => taken.getD i false)).length +
      (freeLows taken cfg.n).length = cfg.n := by
    rw [freeLows_eq taken cfg.n hnle]
    exact length_filter_partition cfg.n (fun i => taken.getD i false)
  have f3 := List.count_true_add_count_false taken
  have f4 : taken.count false = cfg.slots - cfg.n := hcount
  have htcbdef : tcb taken cfg.n (taken.length - cfg.n) =
      ((List.range (taken.length - cfg.n)).filter
        (fun t => taken.getD (cfg.n + t) false)).length := rfl
  have htot : tcb taken cfg.n (taken.length - cfg.n) = (freeLows taken cfg.n).length := by
    omega
  have hmain := remapGo_spec taken cfg.n (freeLows taken cfg.n) htot hnle
    (freeLows taken cfg.n) [] 0
    (by simp)
    (List.drop_zero _).symm
    (by simpa using hnle)
    rfl
    (by intro j hj; simp at hj)
    (Or.inl rfl)
  obtain ⟨vF, hgo, h2, h3, h4, h5⟩ := hmain
  have hflat : ∀ b, tcb taken cfg.n (vF.length + b) = tcb taken cfg.n vF.length := by
    intro b
    by_cases hb : vF.length + b ≤ taken.length - cfg.n
    · have h6 := tcb_mono taken cfg.n (Nat.le_add_right vF.length b)
      have h7 := tcb_mono taken cfg.n hb
      rw [htot] at h7
      omega
    · rw [tcb_stable_beyond taken cfg.n _ (by omega), htot, h3]
  refine ⟨vF, ?_, by omega, h3, h4, h5, ?_⟩
  · unfold remapFreeSlots
    rw [if_neg (fun h => h hcount), if_neg (by simp [hen]; omega)]
    exact hgo
  · intro j hj
    have hfree := tcb_flat_all_free taken cfg.n vF.length hflat (j - cfg.n) (by omega)
    rw [show cfg.n + (j - cfg.n) = j by omega] at hfree
    exact hfree

/-- C4 (corrected): the remap table does NOT always have `slots_total − N`
entries when remapping is enabled and `slots_total > N` (see
`c4_counterexample`).  The correct invariant of `remap_free_slots`
(lib.rs 657-689): with remapping disabled or no overflow slots the table is
empty; in general its length is at most `slots_total − N`, and with remapping
enabled and overflow present the table extends exactly to the last taken
overflow slot — it ends on a taken slot (or is empty) and every overflow slot
past its end is free. -/
theorem c4_remap_length (cfg : Cfg) (taken : List Bool)
    (hlen : taken.length = cfg.slots) (hn : cfg.n ≤ cfg.slots)
    (v : List Nat) (hv : remapFreeSlots cfg taken = some v) :
    v.length ≤ cfg.slots - cfg.n ∧
      ((!cfg.remapEnabled || cfg.slots == cfg.n) = true → v = []) ∧
      (cfg.remapEnabled = true → cfg.n < cfg.slots →
        (v.length = 0 ∨ taken.getD (cfg.n + v.length - 1) false = true) ∧
          ∀ j, cfg.n + v.length ≤ j → taken.getD j false = false) := by
  have hcount : countFalse taken = cfg.slots - cfg.n := by
    by_contra hc
    unfold remapFreeSlots at hv
    rw [if_pos hc] at hv
    exact absurd hv (by simp)
  by_cases hflag : (!cfg.remapEnabled || cfg.slots == cfg.n) = true
  · have hv2 : v = [] := by
      unfold remapFreeSlots at hv
      rw [if_neg (fun h => h hcount), if_pos hflag] at hv
      exact (Option.some.injEq _ _).mp hv.symm
    subst hv2
    refine ⟨by simp, fun _ => rfl, ?_⟩
    intro hen hlt
    rw [hen] at hflag
    simp at hflag
    omega
  · have hen : cfg.remapEnabled = true := by
      by_contra hc
      have : cfg.remapEnabled = false := by
        cases h : cfg.remapEnabled
        · rfl
        · exact absurd h hc
      rw [this] at hflag
      cases h2 : (cfg.slots == cfg.n) <;> simp [h2] at hflag
    have hlt : cfg.n < cfg.slots := by
      rcases Nat.lt_or_ge cfg.n cfg.slots with h | h
      · exact h
      · exfalso
        apply hflag
        have : cfg.slots = cfg.n := by omega
        simp [this]
    obtain ⟨v2, hv2, hs2, _, _, hs5, hs6⟩ :=
      remapFreeSlots_spec cfg taken hlen hcount hen hlt
    have hveq : v2 = v := by
      rw [hv] at hv2
      exact ((Option.some.injEq _ _).mp hv2).symm
    subst hveq
    exact ⟨by omega, fun h => absurd h hflag, fun _ _ => ⟨hs5, hs6⟩⟩

/-- Witness for `c4_remap_length`: the bitmap `[false, true]` with `n = 1`,
`slots = 2` (key set `{1}`: the key occupies the overflow slot 1) yields the
one-entry remap table `[0]`, within the bound `slots_total − N = 1`. -/
theorem c4_witness :
    ([false, true] : List Bool).length = 2 ∧ (1 : Nat) ≤ 2 ∧
      remapFreeSlots { n := 1, slots := 2, buckets := 4, remapEnabled := true }
        [false, true] = some [0] ∧
      ([0] : List Nat).length ≤ 2 - 1 := by
  have hv : remapFreeSlots { n := 1, slots := 2, buckets := 4, remapEnabled := true }
      [false, true] = some [0] := by
    simp [remapFreeSlots, countFalse, freeLows, freeList, remapGo, remapWhile]
  exact ⟨rfl, by omega, hv,
    (c4_remap_length { n := 1, slots := 2, buckets := 4, remapEnabled := true }
      [false, true] rfl (by decide) [0] hv).1⟩

/-! ### Sorting lemmas for `sortParts` -/

/-- `insertAsc` permutes consing. -/
theorem insertAsc_perm (x : Nat) : ∀ l : List Nat, (insertAsc x l).Perm (x :: l) := by
  intro l
  induction l with
  | nil => simp [insertAsc]
  | cons y r ih =>
    unfold insertAsc
    by_cases h : x ≤ y
    · rw [if_pos h]
    · rw [if_neg h]
      exact (ih.cons y).trans (List.Perm.swap x y r)

/-- `sortAsc` is a permutation. -/
theorem sortAsc_perm : ∀ l : List Nat, (sortAsc l).Perm l := by
  intro l
  induction l with
  | nil => exact List.Perm.refl _
  | cons a t ih =>
    show (insertAsc a (sortAsc t)).Perm (a :: t)
    exact (insertAsc_perm a (sortAsc t)).trans (ih.cons a)

/-- `insertAsc` preserves sortedness. -/
theorem insertAsc_sorted (x : Nat) : ∀ {l : List Nat},
    l.Sorted (· ≤ ·) → (insertAsc x l).Sorted (· ≤ ·) := by
  intro l
  induction l with
  | nil => intro _; simp [insertAsc]
  | cons y r ih =>
    intro h
    rw [List.sorted_cons] at h
    obtain ⟨h1, h2⟩ := h
    unfold insertAsc
    by_cases hxy : x ≤ y
    · rw [if_pos hxy, List.sorted_cons]
      refine ⟨?_, List.sorted_cons.mpr ⟨h1, h2⟩⟩
      intro b hb
      rcases List.mem_cons.mp hb with rfl | hbr
      · exact hxy
      · exact Nat.le_trans hxy (h1 b hbr)
    · rw [if_neg hxy, List.sorted_cons]
      constructor
      · intro b hb
        have hmem : b ∈ x :: r := (insertAsc_perm x r).mem_iff.mp hb
        rcases List.mem_cons.mp hmem with rfl | hbr
        · omega
        · exact h1 b hbr
      · exact ih h2

/-- `sortAsc` sorts. -/
theorem sortAsc_sorted : ∀ l : List Nat, (sortAsc l).Sorted (· ≤ ·) := by
  intro l
  induction l with
  | nil => simp [sortAsc]
  | cons a t ih => exact insertAsc_sorted a ih

/-- A sorted list without adjacent duplicates has no duplicates at all. -/
theorem nodup_of_sorted_adjDup : ∀ {l : List Nat},
    l.Sorted (· ≤ ·) → adjDup l = false → l.Nodup := by
  intro l
  induction l with
  | nil => intro _ _; exact List.nodup_nil
  | cons a t ih =>
    intro hs hd
    cases t with
    | nil => simp
    | cons b r =>
      rw [show adjDup (a :: b :: r) = (a == b || adjDup (b :: r)) from rfl,
        Bool.or_eq_false_iff] at hd
      obtain ⟨hab, hd2⟩ := hd
      have hne : a ≠ b := by simpa using hab
      rw [List.sorted_cons] at hs
      obtain ⟨h1, h2⟩ := hs
      have ihn := ih h2 hd2
      rw [List.nodup_cons]
      refine ⟨?_, ihn⟩
      intro hmem
      rcases List.mem_cons.mp hmem with rfl | hmr
      · exact hne rfl
      · rw [List.sorted_cons] at h2
        have hba := h2.1 a hmr
        have hab2 := h1 b (List.mem_cons_self b r)
        omega

/-- `sortParts` success: the output is a duplicate-free permutation of the
input hashes. -/
theorem sortParts_spec (hashes sorted' : List Nat) (h : sortParts hashes = some sorted') :
    sorted'.Perm hashes ∧ sorted'.Nodup := by
  have hdef : sortParts hashes =
      if adjDup (sortAsc hashes) then none else some (sortAsc hashes) := rfl
  rw [hdef] at h
  by_cases hd : adjDup (sortAsc hashes) = true
  · rw [if_pos hd] at h
    cases h
  · have hfd : adjDup (sortAsc hashes) = false := by
      cases hx : adjDup (sortAsc hashes)
      · rfl
      · exact absurd hx hd
    rw [if_neg hd] at h
    cases h
    exact ⟨sortAsc_perm hashes, nodup_of_sorted_adjDup (sortAsc_sorted hashes) hfd⟩

/-! ### Slot-list lemmas -/

/-- A bucket's slot list has one slot per hash. -/
theorem pslots_length (cfg : Cfg) (seed : Nat) (bucket : List Nat) (p : Nat) :
    (pslots cfg seed bucket p).length = bucket.length := by
  simp [pslots, slotsHp]

/-- All slots are below `slots` (the `FM32` reduction). -/
theorem pslots_lt (cfg : Cfg) (hpos : 0 < cfg.slots) (seed : Nat) (bucket : List Nat)
    (p : Nat) : ∀ s ∈ pslots cfg seed bucket p, s < cfg.slots := by
  intro s hs
  simp only [pslots, slotsHp, List.mem_map] at hs
  obtain ⟨hx, _, rfl⟩ := hs
  unfold slotInPartHp fm32
  rw [Nat.max_eq_left hpos]
  exact Nat.mod_lt _ hpos

/-- A nonempty bucket has a nonempty slot list. -/
theorem pslots_ne_nil (cfg : Cfg) (seed : Nat) (bucket : List Nat) (p : Nat)
    (h : bucket ≠ []) : pslots cfg seed bucket p ≠ [] := by
  intro hc
  apply h
  have hl := congrArg List.length hc
  rw [pslots_length] at hl
  exact List.length_eq_zero.mp (by simpa using hl)

/-! ### Bitmap/array update lemmas -/

/-- Reading after a fold of constant `set`s: positions in the list (and in
range) hold the written value, others are unchanged. -/
theorem foldl_set_getD {α : Type} (v d : α) :
    ∀ (ss : List Nat) (l : List α) (s : Nat),
      (ss.foldl (fun t i => t.set i v) l).getD s d =
        if s ∈ ss ∧ s < l.length then v else l.getD s d := by
  intro ss
  induction ss with
  | nil =>
    intro l s
    simp
  | cons a ss ih =>
    intro l s
    show (ss.foldl _ (l.set a v)).getD s d = _
    rw [ih (l.set a v) s, List.length_set]
    by_cases hs : s < l.length
    · by_cases hss : s ∈ ss
      · rw [if_pos ⟨hss, hs⟩, if_pos ⟨List.mem_cons_of_mem _ hss, hs⟩]
      · by_cases hsa : s = a
        · subst hsa
          rw [if_neg (fun hc => hss hc.1), if_pos ⟨List.mem_cons_self _ _, hs⟩]
          exact getD_set_self hs v d
        · rw [if_neg (fun hc => hss hc.1), if_neg (fun hc => by
            rcases List.mem_cons.mp hc.1 with h2 | h2
            · exact hsa h2
            · exact hss h2)]
          exact getD_set_ne (fun h => hsa h.symm) v d
    · rw [if_neg (fun hc => hs hc.2), if_neg (fun hc => hs hc.2)]
      rw [List.getD_eq_default _ _ (by rw [List.length_set]; omega),
        List.getD_eq_default _ _ (by omega)]

/-- A fold of `set`s preserves the length. -/
theorem foldl_set_length {α : Type} (v : α) :
    ∀ (ss : List Nat) (l : List α), (ss.foldl (fun t i => t.set i v) l).length = l.length := by
  intro ss
  induction ss with
  | nil => intro l; rfl
  | cons a ss ih =>
    intro l
    show (ss.foldl _ (l.set a v)).length = _
    rw [ih, List.length_set]

/-- Reading the bitmap after `setTakenList`. -/
theorem setTakenList_getD (taken : List Bool) (ss : List Nat) (s : Nat) :
    (setTakenList taken ss).getD s false =
      if s ∈ ss ∧ s < taken.length then true else taken.getD s false :=
  foldl_set_getD true false ss taken s

/-- Reading the bitmap after `clearTakenList`. -/
theorem clearTakenList_getD (taken : List Bool) (ss : List Nat) (s : Nat) :
    (clearTakenList taken ss).getD s false =
      if s ∈ ss ∧ s < taken.length then false else taken.getD s false :=
  foldl_set_getD false false ss taken s

/-- Reading the owner array after `writeOwners`. -/
theorem writeOwners_getD (sl : List (Option Nat)) (ss : List Nat) (b : Nat) (s : Nat) :
    (writeOwners sl ss b).getD s none =
      if s ∈ ss ∧ s < sl.length then some b else sl.getD s none :=
  foldl_set_getD (some b) none ss sl s

/-- Reading the owner array after `clearOwners`. -/
theorem clearOwners_getD (sl : List (Option Nat)) (ss : List Nat) (s : Nat) :
    (clearOwners sl ss).getD s none =
      if s ∈ ss ∧ s < sl.length then none else sl.getD s none :=
  foldl_set_getD none none ss sl s

/-- `setTakenList` preserves the length. -/
theorem setTakenList_length (taken : List Bool) (ss : List Nat) :
    (setTakenList taken ss).length = taken.length :=
  foldl_set_length true ss taken

/-- `clearTakenList` preserves the length. -/
theorem clearTakenList_length (taken : List Bool) (ss : List Nat) :
    (clearTakenList taken ss).length = taken.length :=
  foldl_set_length false ss taken

/-- `writeOwners` preserves the length. -/
theorem writeOwners_length (sl : List (Option Nat)) (ss : List Nat) (b : Nat) :
    (writeOwners sl ss b).length = sl.length :=
  foldl_set_length (some b) ss sl

/-- `clearOwners` preserves the length. -/
theorem clearOwners_length (sl : List (Option Nat)) (ss : List Nat) :
    (clearOwners sl ss).length = sl.length :=
  foldl_set_length none ss sl

/-! ### Pilot-search lemmas -/

/-- An accepted fast-path pilot has free, duplicate-free slots, and the new
bitmap is the old one with those slots marked. -/
theorem findPilotGo_spec (cfg : Cfg) (seed : Nat) (bucket : List Nat) (taken : List Bool) :
    ∀ (fuel p0 p : Nat) (taken' : List Bool),
      findPilotGo cfg seed bucket taken fuel p0 = some (p, taken') →
      ((pslots cfg seed bucket p).all (fun s => !taken.getD s false)) = true ∧
      adjDup (sortAsc (pslots cfg seed bucket p)) = false ∧
      taken' = setTakenList taken (pslots cfg seed bucket p) := by
  intro fuel
  induction fuel with
  | zero => intro p0 p taken' h; cases h
  | succ fuel ih =>
    intro p0 p taken' h
    unfold findPilotGo at h
    split at h
    · next hcond =>
      cases h
      rw [Bool.and_eq_true] at hcond
      refine ⟨hcond.1, ?_, rfl⟩
      simpa using hcond.2
    · exact ih (p0 + 1) p taken' h

/-- The slow path never returns a pilot with duplicate slots. -/
theorem slowGo_spec (cfg : Cfg) (seed : Nat) (lenOf : Nat → Nat) (sl : List (Option Nat))
    (recent : List (Option Nat)) (bucket : List Nat) (newBLen p0 : Nat) :
    ∀ (fuel delta : Nat) (best : Option (Nat × Nat)),
      (∀ sc q, best = some (sc, q) → duplicateSlots cfg seed bucket q = false) →
      ∀ (sc' q' : Nat),
        slowGo cfg seed lenOf sl recent bucket newBLen p0 fuel delta best = some (sc', q') →
        duplicateSlots cfg seed bucket q' = false := by
  intro fuel
  induction fuel with
  | zero => intro delta best hbest sc' q' h; exact hbest sc' q' h
  | succ fuel ih =>
    intro delta best hbest sc' q' h
    unfold slowGo at h
    split at h
    · exact ih _ best hbest sc' q' h
    · split at h
      · exact ih _ best hbest sc' q' h
      · next hdup =>
        split at h
        · cases h
          cases hx : duplicateSlots cfg seed bucket ((p0 + delta) % 256)
          · rfl
          · exact absurd hx hdup
        · refine ih _ _ ?_ sc' q' h
          intro sc q hq
          cases hq
          cases hx : duplicateSlots cfg seed bucket ((p0 + delta) % 256)
          · rfl
          · exact absurd hx hdup

/-- `slowSearch` success gives a duplicate-free pilot. -/
theorem slowSearch_spec (cfg : Cfg) (seed : Nat) (lenOf : Nat → Nat) (sl : List (Option Nat))
    (recent : List (Option Nat)) (bucket : List Nat) (newBLen p0 sc' q' : Nat)
    (h : slowSearch cfg seed lenOf sl recent bucket newBLen p0 = some (sc', q')) :
    duplicateSlots cfg seed bucket q' = false :=
  slowGo_spec cfg seed lenOf sl recent bucket newBLen p0 256 0 none
    (fun _ _ hx => by cases hx) sc' q' h

/-! ### Heap lemmas -/

/-- The folded maximum is an element. -/
theorem heapMax_mem : ∀ (l : List (Nat × Nat)) (x : Nat × Nat), heapMax x l ∈ x :: l := by
  intro l
  induction l with
  | nil => intro x; exact List.mem_cons_self _ _
  | cons e l ih =>
    intro x
    show heapMax (if pairLt x e then e else x) l ∈ x :: e :: l
    have h := ih (if pairLt x e then e else x)
    rcases List.mem_cons.mp h with h1 | h1
    · rw [h1]
      by_cases hp : pairLt x e
      · rw [if_pos hp]; exact List.mem_cons_of_mem _ (List.mem_cons_self _ _)
      · rw [if_neg hp]; exact List.mem_cons_self _ _
    · exact List.mem_cons_of_mem _ (List.mem_cons_of_mem _ h1)

/-- A member splits off: the list is a permutation of the member consed onto
the erasure (stated for the `BEq` instance used by `heapPop`). -/
theorem perm_cons_erase_pair : ∀ (l : List (Nat × Nat)) (a : Nat × Nat),
    a ∈ l → l.Perm (a :: l.erase a) := by
  intro l
  induction l with
  | nil => intro a h; cases h
  | cons x r ih =>
    intro a h
    by_cases hxa : x = a
    · subst hxa
      rw [List.erase_cons_head]
    · rw [List.erase_cons_tail (by simpa using hxa)]
      have hmem : a ∈ r := by
        rcases List.mem_cons.mp h with h1 | h1
        · exact absurd h1.symm hxa
        · exact h1
      exact ((ih a hmem).cons x).trans (List.Perm.swap a x (r.erase a))

/-- Popping returns an element and the rest; the heap is the popped element
plus the rest (as a multiset). -/
theorem heapPop_spec (stack : List (Nat × Nat)) (m : Nat × Nat) (rest : List (Nat × Nat))
    (h : heapPop stack = some (m, rest)) :
    m ∈ stack ∧ rest = stack.erase m ∧ stack.Perm (m :: rest) := by
  cases stack with
  | nil => cases h
  | cons x r =>
    have hdef : heapPop (x :: r) = some (heapMax x r, (x :: r).erase (heapMax x r)) := rfl
    rw [hdef] at h
    cases h
    have hmem : heapMax x r ∈ x :: r := heapMax_mem r x
    exact ⟨hmem, rfl, perm_cons_erase_pair _ _ hmem⟩

/-- An empty pop means an empty heap. -/
theorem heapPop_none (stack : List (Nat × Nat)) (h : heapPop stack = none) : stack = [] := by
  cases stack with
  | nil => rfl
  | cons x r => simp [heapPop] at h

/-! ### Bucket-order lemmas -/

/-- `insertBySize` permutes consing. -/
theorem insertBySize_perm (len : Nat → Nat) (b : Nat) :
    ∀ l : List Nat, (insertBySize len b l).Perm (b :: l) := by
  intro l
  induction l with
  | nil => simp [insertBySize]
  | cons c r ih =>
    unfold insertBySize
    by_cases h : len c < len b
    · rw [if_pos h]
    · rw [if_neg h]
      exact (ih.cons c).trans (List.Perm.swap b c r)

/-- The fold of stable inserts is a permutation of the input plus
accumulator. -/
theorem foldl_insertBySize_perm (len : Nat → Nat) :
    ∀ (l acc : List Nat),
      (l.foldl (fun acc b => insertBySize len b acc) acc).Perm (l ++ acc) := by
  intro l
  induction l with
  | nil => intro acc; simp
  | cons a l ih =>
    intro acc
    show (l.foldl _ (insertBySize len a acc)).Perm (a :: l ++ acc)
    have h1 := ih (insertBySize len a acc)
    have h2 : (l ++ insertBySize len a acc).Perm (l ++ (a :: acc)) :=
      List.Perm.append_left l (insertBySize_perm len a acc)
    have h3 : (l ++ (a :: acc)).Perm (a :: (l ++ acc)) := List.perm_middle
    exact h1.trans (h2.trans h3)

/-- The processing order is a permutation of all bucket indices. -/
theorem bucketOrder_perm (len : Nat → Nat) (nB : Nat) :
    (bucketOrder len nB).Perm (List.range nB) := by
  have h := foldl_insertBySize_perm len (List.range nB) []
  simpa [bucketOrder] using h

/-! ### The placement step of the slow path -/

/-- `placeSlots` specification: starting from a mid-placement state, placing
the remaining slots `ss` of bucket `b` succeeds in transferring exactly
`done ++ ss` to `b`, keeps every other bucket's ownership exact, and pushes
the evicted buckets (each fully cleared) onto the stack. -/
theorem placeSlots_spec (cfg : Cfg) (seed : Nat) (bh : Nat → List Nat) (b : Nat) :
    ∀ (ss done : List Nat) (st : EvSt),
      MidInv cfg seed bh b done st →
      done ++ ss = pslots cfg seed (bh b) (st.pilots.getD b 0) →
      (pslots cfg seed (bh b) (st.pilots.getD b 0)).Nodup →
      (∀ s ∈ pslots cfg seed (bh b) (st.pilots.getD b 0), s < cfg.slots) →
      ∀ st', placeSlots cfg seed bh b ss st = some st' →
        st'.pilots = st.pilots ∧ st'.recent = st.recent ∧
        st'.recentIdx = st.recentIdx ∧ st'.drawIdx = st.drawIdx ∧
        MidInv cfg seed bh b (done ++ ss) st' ∧
        (∀ c, c ≠ b → placedIn st' c → placedIn st c) ∧
        ∃ evicted : List Nat,
          st'.stack = evicted.map (fun c => ((bh c).length, c)) ++ st.stack ∧
          evicted.Nodup ∧
          (∀ c ∈ evicted, c ≠ b ∧ placedIn st c ∧ ¬ placedIn st' c ∧
            c < cfg.buckets ∧ bh c ≠ []) ∧
          (∀ c, c ≠ b → placedIn st c → placedIn st' c ∨ c ∈ evicted) := by
  intro ss
  induction ss with
  | nil =>
    intro done st hmid happ hnodup hlt st' h
    cases h
    exact ⟨rfl, rfl, rfl, rfl, by simpa using hmid, fun c _ hc => hc,
      ⟨[], by simp, List.nodup_nil, by simp, fun c _ hc => Or.inl hc⟩⟩
  | cons s rest ih =>
    intro done st hmid happ hnodup hlt st' h
    have hsP : s ∈ pslots cfg seed (bh b) (st.pilots.getD b 0) := by
      rw [← happ]
      exact List.mem_append_right done (List.mem_cons_self s rest)
    have hslt : s < cfg.slots := hlt s hsP
    have haveS : s < st.slotsArr.length := by rw [hmid.slots_len]; exact hslt
    have haveT : s < st.taken.length := by rw [hmid.taken_len]; exact hslt
    have hsdone : s ∉ done := by
      rw [← happ] at hnodup
      have hd := List.disjoint_of_nodup_append hnodup
      rw [happ] at hnodup
      intro hc
      exact hd hc (List.mem_cons_self s rest)
    unfold placeSlots at h
    split at h
    · next h1 =>
      have hmid1 : MidInv cfg seed bh b (done ++ [s])
          { st with
            slotsArr := st.slotsArr.set s (some b)
            taken := st.taken.set s true } := by
        constructor
        · show (st.taken.set s true).length = cfg.slots
          rw [List.length_set]; exact hmid.taken_len
        · show (st.slotsArr.set s (some b)).length = cfg.slots
          rw [List.length_set]; exact hmid.slots_len
        · exact hmid.pilots_len
        · intro s2
          show (st.taken.set s true).getD s2 false =
            ((st.slotsArr.set s (some b)).getD s2 none).isSome
          by_cases hs2 : s2 = s
          · subst hs2
            rw [getD_set_self haveT, getD_set_self haveS]
            rfl
          · rw [getD_set_ne (fun hh => hs2 hh.symm), getD_set_ne (fun hh => hs2 hh.symm)]
            exact hmid.agree s2
        · intro s2 c hc hcb
          have hc' : (st.slotsArr.set s (some b)).getD s2 none = some c := hc
          by_cases hs2 : s2 = s
          · subst hs2
            rw [getD_set_self haveS] at hc'
            cases hc'
            exact absurd rfl hcb
          · rw [getD_set_ne (fun hh => hs2 hh.symm)] at hc'
            obtain ⟨q1, q2, q3, q4, q5⟩ := hmid.others s2 c hc' hcb
            refine ⟨q1, q2, q3, q4, ?_⟩
            intro s3 hs3
            have h5 := q5 s3 hs3
            have hs3s : s3 ≠ s := by
              intro hh
              subst hh
              rw [h1] at h5
              cases h5
            show (st.slotsArr.set s (some b)).getD s3 none = some c
            rw [getD_set_ne (fun hh => hs3s hh.symm)]
            exact h5
        · intro s2
          show (st.slotsArr.set s (some b)).getD s2 none = some b ↔ s2 ∈ done ++ [s]
          by_cases hs2 : s2 = s
          · subst hs2
            rw [getD_set_self haveS]
            simp
          · rw [getD_set_ne (fun hh => hs2 hh.symm), hmid.partial_b s2]
            simp [hs2]
      have happ1 : (done ++ [s]) ++ rest = pslots cfg seed (bh b) (st.pilots.getD b 0) := by
        simpa using happ
      obtain ⟨g1, g2, g3, g4, g5, g6, E, gE1, gE2, gE3, gE4⟩ :=
        ih (done ++ [s]) _ hmid1 happ1 hnodup hlt st' h
      refine ⟨g1, g2, g3, g4, ?_, ?_, E, gE1, gE2, ?_, ?_⟩
      · have he : (done ++ [s]) ++ rest = done ++ s :: rest := by simp
        rw [he] at g5
        exact g5
      · intro c hcb hc
        obtain ⟨s2, hs2⟩ := g6 c hcb hc
        have hs2' : (st.slotsArr.set s (some b)).getD s2 none = some c := hs2
        by_cases hq : s2 = s
        · subst hq
          rw [getD_set_self haveS] at hs2'
          cases hs2'
          exact absurd rfl hcb
        · rw [getD_set_ne (fun hh => hq hh.symm)] at hs2'
          exact ⟨s2, hs2'⟩
      · intro c hcE
        obtain ⟨p1, p2, p3, p4, p5⟩ := gE3 c hcE
        refine ⟨p1, ?_, p3, p4, p5⟩
        obtain ⟨s2, hs2⟩ := p2
        have hs2' : (st.slotsArr.set s (some b)).getD s2 none = some c := hs2
        by_cases hq : s2 = s
        · subst hq
          rw [getD_set_self haveS] at hs2'
          cases hs2'
          exact absurd rfl p1
        · rw [getD_set_ne (fun hh => hq hh.symm)] at hs2'
          exact ⟨s2, hs2'⟩
      · intro c hcb hc
        obtain ⟨s2, hs2⟩ := hc
        have hs2s : s2 ≠ s := by
          intro hh
          subst hh
          rw [h1] at hs2
          cases hs2
        refine gE4 c hcb ⟨s2, ?_⟩
        show (st.slotsArr.set s (some b)).getD s2 none = some c
        rw [getD_set_ne (fun hh => hs2s hh.symm)]
        exact hs2
    · next b2 h1 =>
      split at h
      · cases h
      · next hne =>
        obtain ⟨q1, q2, q3, q4, q5⟩ := hmid.others s b2 h1 hne
        have hQlt : ∀ s2 ∈ pslots cfg seed (bh b2) (st.pilots.getD b2 0), s2 < cfg.slots :=
          pslots_lt cfg (by omega) seed _ _
        have hAchar : ∀ s2, ((clearOwners st.slotsArr
            (pslots cfg seed (bh b2) (st.pilots.getD b2 0))).set s (some b)).getD s2 none =
            if s2 = s then some b
            else if s2 ∈ pslots cfg seed (bh b2) (st.pilots.getD b2 0) then none
            else st.slotsArr.getD s2 none := by
          intro s2
          by_cases hq : s2 = s
          · subst hq
            rw [if_pos rfl, getD_set_self (by rw [clearOwners_length]; exact haveS)]
          · rw [if_neg hq, getD_set_ne (fun hh => hq hh.symm), clearOwners_getD]
            by_cases hq2 : s2 ∈ pslots cfg seed (bh b2) (st.pilots.getD b2 0)
            · rw [if_pos ⟨hq2, by rw [hmid.slots_len]; exact hQlt s2 hq2⟩, if_pos hq2]
            · rw [if_neg (fun hc => hq2 hc.1), if_neg hq2]
        have hTchar : ∀ s2, ((clearTakenList st.taken
            (pslots cfg seed (bh b2) (st.pilots.getD b2 0))).set s true).getD s2 false =
            if s2 = s then true
            else if s2 ∈ pslots cfg seed (bh b2) (st.pilots.getD b2 0) then false
            else st.taken.getD s2 false := by
          intro s2
          by_cases hq : s2 = s
          · subst hq
            rw [if_pos rfl, getD_set_self (by rw [clearTakenList_length]; exact haveT)]
          · rw [if_neg hq, getD_set_ne (fun hh => hq hh.symm), clearTakenList_getD]
            by_cases hq2 : s2 ∈ pslots cfg seed (bh b2) (st.pilots.getD b2 0)
            · rw [if_pos ⟨hq2, by rw [hmid.taken_len]; exact hQlt s2 hq2⟩, if_pos hq2]
            · rw [if_neg (fun hc => hq2 hc.1), if_neg hq2]
        have hb2unplaced : ∀ s2, ((clearOwners st.slotsArr
            (pslots cfg seed (bh b2) (st.pilots.getD b2 0))).set s (some b)).getD s2 none ≠
            some b2 := by
          intro s2 hc
          rw [hAchar s2] at hc
          by_cases hq : s2 = s
          · rw [if_pos hq] at hc
            cases hc
            exact hne rfl
          · rw [if_neg hq] at hc
            by_cases hq2 : s2 ∈ pslots cfg seed (bh b2) (st.pilots.getD b2 0)
            · rw [if_pos hq2] at hc
              cases hc
            · rw [if_neg hq2] at hc
              exact hq2 (hmid.others s2 b2 hc hne).2.2.1
        have hmid1 : MidInv cfg seed bh b (done ++ [s])
            { st with
              stack := ((bh b2).length, b2) :: st.stack
              evictions := st.evictions + 1
              slotsArr := (clearOwners st.slotsArr
                (pslots cfg seed (bh b2) (st.pilots.getD b2 0))).set s (some b)
              taken := (clearTakenList st.taken
                (pslots cfg seed (bh b2) (st.pilots.getD b2 0))).set s true } := by
          constructor
          · show ((clearTakenList st.taken
              (pslots cfg seed (bh b2) (st.pilots.getD b2 0))).set s true).length = cfg.slots
            rw [List.length_set, clearTakenList_length]
            exact hmid.taken_len
          · show ((clearOwners st.slotsArr
              (pslots cfg seed (bh b2) (st.pilots.getD b2 0))).set s (some b)).length = cfg.slots
            rw [List.length_set, clearOwners_length]
            exact hmid.slots_len
          · exact hmid.pilots_len
          · intro s2
            show ((clearTakenList st.taken
              (pslots cfg seed (bh b2) (st.pilots.getD b2 0))).set s true).getD s2 false =
              (((clearOwners st.slotsArr
                (pslots cfg seed (bh b2) (st.pilots.getD b2 0))).set s (some b)).getD
                  s2 none).isSome
            rw [hAchar s2, hTchar s2]
            by_cases hq : s2 = s
            · rw [if_pos hq, if_pos hq]
              rfl
            · rw [if_neg hq, if_neg hq]
              by_cases hq2 : s2 ∈ pslots cfg seed (bh b2) (st.pilots.getD b2 0)
              · rw [if_pos hq2, if_pos hq2]
                rfl
              · rw [if_neg hq2, if_neg hq2]
                exact hmid.agree s2
          · intro s2 c hc hcb
            have hc' : ((clearOwners st.slotsArr
                (pslots cfg seed (bh b2) (st.pilots.getD b2 0))).set s (some b)).getD
                  s2 none = some c := hc
            rw [hAchar s2] at hc'
            by_cases hq : s2 = s
            · rw [if_pos hq] at hc'
              cases hc'
              exact absurd rfl hcb
            · rw [if_neg hq] at hc'
              by_cases hq2 : s2 ∈ pslots cfg seed (bh b2) (st.pilots.getD b2 0)
              · rw [if_pos hq2] at hc'
                cases hc'
              · rw [if_neg hq2] at hc'
                obtain ⟨w1, w2, w3, w4, w5⟩ := hmid.others s2 c hc' hcb
                have hcb2 : c ≠ b2 := by
                  intro hh
                  subst hh
                  exact hq2 w3
                refine ⟨w1, w2, w3, w4, ?_⟩
                intro s3 hs3
                have h5 := w5 s3 hs3
                show ((clearOwners st.slotsArr
                  (pslots cfg seed (bh b2) (st.pilots.getD b2 0))).set s (some b)).getD
                    s3 none = some c
                rw [hAchar s3]
                have hs3s : s3 ≠ s := by
                  intro hh
                  subst hh
                  rw [h1] at h5
                  cases h5
                  exact hcb2 rfl
                rw [if_neg hs3s]
                have hs3Q : s3 ∉ pslots cfg seed (bh b2) (st.pilots.getD b2 0) := by
                  intro hh
                  have h6 := q5 s3 hh
                  rw [h5] at h6
                  cases h6
                  exact hcb2 rfl
                rw [if_neg hs3Q]
                exact h5
          · intro s2
            show ((clearOwners st.slotsArr
              (pslots cfg seed (bh b2) (st.pilots.getD b2 0))).set s (some b)).getD
                s2 none = some b ↔ s2 ∈ done ++ [s]
            rw [hAchar s2]
            by_cases hq : s2 = s
            · subst hq
              rw [if_pos rfl]
              simp
            · rw [if_neg hq]
              by_cases hq2 : s2 ∈ pslots cfg seed (bh b2) (st.pilots.getD b2 0)
              · rw [if_pos hq2]
                constructor
                · intro hc
                  cases hc
                · intro hc
                  exfalso
                  rcases List.mem_append.mp hc with hc2 | hc2
                  · have h6 := q5 s2 hq2
                    rw [(hmid.partial_b s2).mpr hc2] at h6
                    cases h6
                    exact hne rfl
                  · exact hq (List.mem_singleton.mp hc2)
              · rw [if_neg hq2, hmid.partial_b s2]
                simp [hq]
        have happ1 : (done ++ [s]) ++ rest = pslots cfg seed (bh b) (st.pilots.getD b 0) := by
          simpa using happ
        obtain ⟨g1, g2, g3, g4, g5, g6, E, gE1, gE2, gE3, gE4⟩ :=
          ih (done ++ [s]) _ hmid1 happ1 hnodup hlt st' h
        have hmid1_to_st : ∀ c, c ≠ b → c ≠ b2 →
            ∀ s2, ((clearOwners st.slotsArr
              (pslots cfg seed (bh b2) (st.pilots.getD b2 0))).set s (some b)).getD
                s2 none = some c → st.slotsArr.getD s2 none = some c := by
          intro c hcb hcb2 s2 hs2
          rw [hAchar s2] at hs2
          by_cases hq : s2 = s
          · rw [if_pos hq] at hs2
            cases hs2
            exact absurd rfl hcb
          · rw [if_neg hq] at hs2
            by_cases hq2 : s2 ∈ pslots cfg seed (bh b2) (st.pilots.getD b2 0)
            · rw [if_pos hq2] at hs2
              cases hs2
            · rw [if_neg hq2] at hs2
              exact hs2
        have hst_to_mid1 : ∀ c, c ≠ b2 →
            ∀ s2, st.slotsArr.getD s2 none = some c →
              ((clearOwners st.slotsArr
                (pslots cfg seed (bh b2) (st.pilots.getD b2 0))).set s (some b)).getD
                  s2 none = some c := by
          intro c hcb2 s2 hs2
          rw [hAchar s2]
          have hs2s : s2 ≠ s := by
            intro hh
            subst hh
            rw [h1] at hs2
            cases hs2
            exact hcb2 rfl
          rw [if_neg hs2s]
          have hs2Q : s2 ∉ pslots cfg seed (bh b2) (st.pilots.getD b2 0) := by
            intro hh
            have h6 := q5 s2 hh
            rw [hs2] at h6
            cases h6
            exact hcb2 rfl
          rw [if_neg hs2Q]
          exact hs2
        refine ⟨g1, g2, g3, g4, ?_, ?_, E ++ [b2], ?_, ?_, ?_, ?_⟩
        · have he : (done ++ [s]) ++ rest = done ++ s :: rest := by simp
          rw [he] at g5
          exact g5
        · intro c hcb hc
          have h2 := g6 c hcb hc
          by_cases hcb2 : c = b2
          · subst hcb2
            exact ⟨s, h1⟩
          · obtain ⟨s2, hs2⟩ := h2
            exact ⟨s2, hmid1_to_st c hcb hcb2 s2 hs2⟩
        · rw [gE1, List.map_append]
          simp
        · rw [List.nodup_append]
          refine ⟨gE2, List.nodup_singleton b2, ?_⟩
          intro c hcE hc2
          rw [List.mem_singleton] at hc2
          obtain ⟨s2, hs2⟩ := (gE3 c hcE).2.1
          rw [hc2] at hs2
          exact hb2unplaced s2 hs2
        · intro c hcE
          rcases List.mem_append.mp hcE with hcE2 | hcE2
          · obtain ⟨p1, p2, p3, p4, p5⟩ := gE3 c hcE2
            refine ⟨p1, ?_, p3, p4, p5⟩
            by_cases hcb2 : c = b2
            · subst hcb2
              exact ⟨s, h1⟩
            · obtain ⟨s2, hs2⟩ := p2
              exact ⟨s2, hmid1_to_st c p1 hcb2 s2 hs2⟩
          · rw [List.mem_singleton] at hcE2
            subst hcE2
            refine ⟨fun hh => hne hh, ⟨s, h1⟩, ?_, q1, q2⟩
            intro hc
            obtain ⟨s2, hs2⟩ := g6 c (fun hh => hne hh) hc
            exact hb2unplaced s2 hs2
        · intro c hcb hc
          by_cases hcb2 : c = b2
          · subst hcb2
            exact Or.inr (List.mem_append_right _ (List.mem_singleton_self c))
          · obtain ⟨s2, hs2⟩ := hc
            have h2 : placedIn { st with
                stack := ((bh b2).length, b2) :: st.stack
                evictions := st.evictions + 1
                slotsArr := (clearOwners st.slotsArr
                  (pslots cfg seed (bh b2) (st.pilots.getD b2 0))).set s (some b)
                taken := (clearTakenList st.taken
                  (pslots cfg seed (bh b2) (st.pilots.getD b2 0))).set s true } c :=
              ⟨s2, hst_to_mid1 c hcb2 s2 hs2⟩
            rcases gE4 c hcb h2 with h3 | h3
            · exact Or.inl h3
            · exact Or.inr (List.mem_append_left _ h3)

/-! ### The eviction loop -/

/-- `evictLoop` specification: from an invariant state the loop returns (when
it returns) an invariant state with an empty stack; every bucket placed or
stacked at entry is placed at exit, and every bucket placed at exit was
placed or stacked at entry. -/
theorem evictLoop_spec (cfg : Cfg) (seed : Nat) (bh : Nat → List Nat) (newBLen : Nat)
    (draws : List Nat) (hslots : 0 < cfg.slots) :
    ∀ (fuel : Nat) (st : EvSt),
      PartInv cfg seed bh st →
      StackInv cfg bh st →
      ∀ st', evictLoop cfg seed bh newBLen draws fuel st = some st' →
        PartInv cfg seed bh st' ∧
        st'.stack = [] ∧
        (∀ c, placedIn st c ∨ c ∈ stackBuckets st → placedIn st' c) ∧
        (∀ c, placedIn st' c → placedIn st c ∨ c ∈ stackBuckets st) := by
  intro fuel
  induction fuel with
  | zero => intro st _ _ st' h; cases h
  | succ fuel ih =>
    intro st hPart hStack st' h
    unfold evictLoop at h
    split at h
    · next hpop =>
      cases h
      have hstack : st.stack = [] := heapPop_none _ hpop
      refine ⟨hPart, hstack, ?_, fun c hc => Or.inl hc⟩
      intro c hc
      rcases hc with hc | hc
      · exact hc
      · rw [stackBuckets, hstack] at hc
        cases hc
    · next x b stack1 hpop =>
      obtain ⟨hmem, hrest, hperm⟩ := heapPop_spec st.stack (x, b) stack1 hpop
      obtain ⟨hbne, hblt, hbunpl⟩ := hStack.mem (x, b) hmem
      have hsub : stack1.Sublist st.stack := by rw [hrest]; exact List.erase_sublist _ _
      have hnodup1 : (stack1.map Prod.snd).Nodup :=
        hStack.nodup.sublist (hsub.map Prod.snd)
      have hpermB : (stackBuckets st).Perm (b :: stack1.map Prod.snd) := hperm.map Prod.snd
      have hbnotin1 : b ∉ stack1.map Prod.snd := by
        have hnd := (hpermB.nodup_iff).mp hStack.nodup
        exact (List.nodup_cons.mp hnd).1
      have hstackmem1 : ∀ e ∈ stack1, e ∈ st.stack := fun e he => hsub.mem he
      split at h
      · cases h
      · split at h
        · next p taken1 hfp =>
          obtain ⟨hfree, hdup, htaken1⟩ :=
            findPilotGo_spec cfg seed (bh b) st.taken 256 0 p taken1 hfp
          subst htaken1
          have hPnodup : (pslots cfg seed (bh b) p).Nodup :=
            ((sortAsc_perm _).nodup_iff).mp
              (nodup_of_sorted_adjDup (sortAsc_sorted _) hdup)
          have hPlt : ∀ s ∈ pslots cfg seed (bh b) p, s < cfg.slots :=
            pslots_lt cfg hslots seed _ _
          have hfree' : ∀ s ∈ pslots cfg seed (bh b) p, st.taken.getD s false = false := by
            intro s hs
            have h2 := List.all_eq_true.mp hfree s hs
            simpa using h2
          have hfreeowner : ∀ s ∈ pslots cfg seed (bh b) p,
              st.slotsArr.getD s none = none := by
            intro s hs
            have h1 := hPart.agree s
            rw [hfree' s hs] at h1
            cases ho : st.slotsArr.getD s none
            · rfl
            · rw [ho] at h1
              simp at h1
          have hA2 : ∀ s, (writeOwners st.slotsArr (pslots cfg seed (bh b) p) b).getD s none =
              if s ∈ pslots cfg seed (bh b) p then some b else st.slotsArr.getD s none := by
            intro s
            rw [writeOwners_getD]
            by_cases hs : s ∈ pslots cfg seed (bh b) p
            · rw [if_pos ⟨hs, by rw [hPart.slots_len]; exact hPlt s hs⟩, if_pos hs]
            · rw [if_neg (fun hc => hs hc.1), if_neg hs]
          have hT2 : ∀ s, (setTakenList st.taken (pslots cfg seed (bh b) p)).getD s false =
              if s ∈ pslots cfg seed (bh b) p then true else st.taken.getD s false := by
            intro s
            rw [setTakenList_getD]
            by_cases hs : s ∈ pslots cfg seed (bh b) p
            · rw [if_pos ⟨hs, by rw [hPart.taken_len]; exact hPlt s hs⟩, if_pos hs]
            · rw [if_neg (fun hc => hs hc.1), if_neg hs]
          have hpb : (st.pilots.set b p).getD b 0 = p :=
            getD_set_self (by rw [hPart.pilots_len]; exact hblt) p 0
          have hpc : ∀ c, c ≠ b → (st.pilots.set b p).getD c 0 = st.pilots.getD c 0 :=
            fun c hc => getD_set_ne (fun hh => hc hh.symm) p 0
          have hbnone : ∀ s, st.slotsArr.getD s none ≠ some b := by
            intro s hc
            exact hbunpl ⟨s, hc⟩
          have hPart2 : PartInv cfg seed bh
              { st with
                stack := stack1
                taken := setTakenList st.taken (pslots cfg seed (bh b) p)
                pilots := st.pilots.set b p
                slotsArr := writeOwners st.slotsArr (pslots cfg seed (bh b) p) b } := by
            constructor
            · show (setTakenList st.taken (pslots cfg seed (bh b) p)).length = cfg.slots
              rw [setTakenList_length]; exact hPart.taken_len
            · show (writeOwners st.slotsArr (pslots cfg seed (bh b) p) b).length = cfg.slots
              rw [writeOwners_length]; exact hPart.slots_len
            · show (st.pilots.set b p).length = cfg.buckets
              rw [List.length_set]; exact hPart.pilots_len
            · intro s
              show (setTakenList st.taken (pslots cfg seed (bh b) p)).getD s false =
                ((writeOwners st.slotsArr (pslots cfg seed (bh b) p) b).getD s none).isSome
              rw [hA2 s, hT2 s]
              by_cases hs : s ∈ pslots cfg seed (bh b) p
              · rw [if_pos hs, if_pos hs]
                rfl
              · rw [if_neg hs, if_neg hs]
                exact hPart.agree s
            · intro s c hc
              have hc' : (writeOwners st.slotsArr (pslots cfg seed (bh b) p) b).getD s none =
                  some c := hc
              rw [hA2 s] at hc'
              by_cases hs : s ∈ pslots cfg seed (bh b) p
              · rw [if_pos hs] at hc'
                cases hc'
                refine ⟨hblt, hbne, by rw [hpb]; exact hs, by rw [hpb]; exact hPnodup, ?_⟩
                intro s2 hs2
                rw [hpb] at hs2
                show (writeOwners st.slotsArr (pslots cfg seed (bh b) p) b).getD s2 none =
                  some b
                rw [hA2 s2, if_pos hs2]
              · rw [if_neg hs] at hc'
                obtain ⟨w1, w2, w3, w4, w5⟩ := hPart.owner_props s c hc'
                have hcb : c ≠ b := by
                  intro hh
                  subst hh
                  exact hbnone s hc'
                rw [show ({ st with
                    stack := stack1
                    taken := setTakenList st.taken (pslots cfg seed (bh b) p)
                    pilots := st.pilots.set b p
                    slotsArr := writeOwners st.slotsArr (pslots cfg seed (bh b) p) b } :
                  EvSt).pilots = st.pilots.set b p from rfl, hpc c hcb]
                refine ⟨w1, w2, w3, w4, ?_⟩
                intro s2 hs2
                have h5 := w5 s2 hs2
                show (writeOwners st.slotsArr (pslots cfg seed (bh b) p) b).getD s2 none =
                  some c
                rw [hA2 s2]
                have hs2P : s2 ∉ pslots cfg seed (bh b) p := by
                  intro hh
                  rw [hfreeowner s2 hh] at h5
                  cases h5
                rw [if_neg hs2P]
                exact h5
          have hStack2 : StackInv cfg bh
              { st with
                stack := stack1
                taken := setTakenList st.taken (pslots cfg seed (bh b) p)
                pilots := st.pilots.set b p
                slotsArr := writeOwners st.slotsArr (pslots cfg seed (bh b) p) b } := by
            constructor
            · exact hnodup1
            · intro e he
              obtain ⟨v1, v2, v3⟩ := hStack.mem e (hstackmem1 e he)
              refine ⟨v1, v2, ?_⟩
              intro hc
              obtain ⟨s2, hs2⟩ := hc
              have hs2' : (writeOwners st.slotsArr (pslots cfg seed (bh b) p) b).getD
                  s2 none = some e.2 := hs2
              rw [hA2 s2] at hs2'
              have heb : e.2 ≠ b := by
                intro hh
                apply hbnotin1
                rw [← hh]
                exact List.mem_map_of_mem Prod.snd he
              by_cases hs : s2 ∈ pslots cfg seed (bh b) p
              · rw [if_pos hs] at hs2'
                cases hs2'
                exact heb rfl
              · rw [if_neg hs] at hs2'
                exact v3 ⟨s2, hs2'⟩
          obtain ⟨r1, r2, r3, r4⟩ := ih _ hPart2 hStack2 st' h
          have hplace2 : ∀ c, placedIn st c → placedIn
              { st with
                stack := stack1
                taken := setTakenList st.taken (pslots cfg seed (bh b) p)
                pilots := st.pilots.set b p
                slotsArr := writeOwners st.slotsArr (pslots cfg seed (bh b) p) b } c := by
            intro c hc
            obtain ⟨s2, hs2⟩ := hc
            refine ⟨s2, ?_⟩
            show (writeOwners st.slotsArr (pslots cfg seed (bh b) p) b).getD s2 none = some c
            rw [hA2 s2]
            have hs2P : s2 ∉ pslots cfg seed (bh b) p := by
              intro hh
              rw [hfreeowner s2 hh] at hs2
              cases hs2
            rw [if_neg hs2P]
            exact hs2
          have hbplaced2 : placedIn
              { st with
                stack := stack1
                taken := setTakenList st.taken (pslots cfg seed (bh b) p)
                pilots := st.pilots.set b p
                slotsArr := writeOwners st.slotsArr (pslots cfg seed (bh b) p) b } b := by
            have hPne : pslots cfg seed (bh b) p ≠ [] := pslots_ne_nil cfg seed _ p hbne
            obtain ⟨s2, hs2⟩ := List.exists_mem_of_ne_nil _ hPne
            refine ⟨s2, ?_⟩
            show (writeOwners st.slotsArr (pslots cfg seed (bh b) p) b).getD s2 none = some b
            rw [hA2 s2, if_pos hs2]
          refine ⟨r1, r2, ?_, ?_⟩
          · intro c hc
            rcases hc with hc | hc
            · exact r3 c (Or.inl (hplace2 c hc))
            · have hc2 : c ∈ b :: stack1.map Prod.snd := hpermB.mem_iff.mp hc
              rcases List.mem_cons.mp hc2 with rfl | hc3
              · exact r3 c (Or.inl hbplaced2)
              · exact r3 c (Or.inr hc3)
          · intro c hc
            rcases r4 c hc with hc2 | hc2
            · obtain ⟨s2, hs2⟩ := hc2
              have hs2' : (writeOwners st.slotsArr (pslots cfg seed (bh b) p) b).getD
                  s2 none = some c := hs2
              rw [hA2 s2] at hs2'
              by_cases hs : s2 ∈ pslots cfg seed (bh b) p
              · rw [if_pos hs] at hs2'
                cases hs2'
                exact Or.inr (hpermB.mem_iff.mpr (List.mem_cons_self _ _))
              · rw [if_neg hs] at hs2'
                exact Or.inl ⟨s2, hs2'⟩
            · exact Or.inr (hpermB.mem_iff.mpr (List.mem_cons_of_mem _ hc2))
        · next hfp =>
          split at h
          · cases h
          · next sp hsp =>
            split at h
            · cases h
            · next st3 hps =>
              have hdupf : duplicateSlots cfg seed (bh b) sp.2 = false :=
                slowSearch_spec cfg seed (fun c => (bh c).length) st.slotsArr st.recent
                  (bh b) newBLen ((draws.getD st.drawIdx 0) % 256) sp.1 sp.2 hsp
              have hPnodup : (pslots cfg seed (bh b) sp.2).Nodup :=
                ((sortAsc_perm _).nodup_iff).mp
                  (nodup_of_sorted_adjDup (sortAsc_sorted _) hdupf)
              have hPlt : ∀ s ∈ pslots cfg seed (bh b) sp.2, s < cfg.slots :=
                pslots_lt cfg hslots seed _ _
              have hpb : (st.pilots.set b sp.2).getD b 0 = sp.2 :=
                getD_set_self (by rw [hPart.pilots_len]; exact hblt) sp.2 0
              have hpc : ∀ c, c ≠ b → (st.pilots.set b sp.2).getD c 0 = st.pilots.getD c 0 :=
                fun c hc => getD_set_ne (fun hh => hc hh.symm) sp.2 0
              have hbnone : ∀ s, st.slotsArr.getD s none ≠ some b := by
                intro s hc
                exact hbunpl ⟨s, hc⟩
              have hmidpre : MidInv cfg seed bh b []
                  { st with
                    stack := stack1
                    drawIdx := st.drawIdx + 1
                    pilots := st.pilots.set b sp.2 } := by
                constructor
                · exact hPart.taken_len
                · exact hPart.slots_len
                · show (st.pilots.set b sp.2).length = cfg.buckets
                  rw [List.length_set]; exact hPart.pilots_len
                · exact hPart.agree
                · intro s c hc hcb
                  obtain ⟨w1, w2, w3, w4, w5⟩ := hPart.owner_props s c hc
                  rw [show ({ st with
                      stack := stack1
                      drawIdx := st.drawIdx + 1
                      pilots := st.pilots.set b sp.2 } : EvSt).pilots =
                    st.pilots.set b sp.2 from rfl, hpc c hcb]
                  exact ⟨w1, w2, w3, w4, w5⟩
                · intro s
                  constructor
                  · intro hc
                    exact absurd hc (hbnone s)
                  · intro hc
                    cases hc
              obtain ⟨g1, g2, g3, g4, g5, g6, E, gE1, gE2, gE3, gE4⟩ :=
                placeSlots_spec cfg seed bh b (pslots cfg seed (bh b) sp.2) [] _ hmidpre
                  (by
                    show [] ++ pslots cfg seed (bh b) sp.2 =
                      pslots cfg seed (bh b) ((st.pilots.set b sp.2).getD b 0)
                    rw [hpb]
                    rfl)
                  (by
                    show (pslots cfg seed (bh b) ((st.pilots.set b sp.2).getD b 0)).Nodup
                    rw [hpb]
                    exact hPnodup)
                  (by
                    show ∀ s ∈ pslots cfg seed (bh b) ((st.pilots.set b sp.2).getD b 0),
                      s < cfg.slots
                    rw [hpb]
                    exact hPlt)
                  st3 hps
              have hg5 : MidInv cfg seed bh b (pslots cfg seed (bh b) sp.2) st3 := by
                have he : ([] : List Nat) ++ pslots cfg seed (bh b) sp.2 =
                    pslots cfg seed (bh b) sp.2 := by simp
                rw [he] at g5
                exact g5
              have hpil3 : st3.pilots = st.pilots.set b sp.2 := g1
              have hownb : ∀ s, st3.slotsArr.getD s none = some b ↔
                  s ∈ pslots cfg seed (bh b) sp.2 := hg5.partial_b
              have hPart4 : PartInv cfg seed bh
                  { st3 with
                    recent := st3.recent.set ((st3.recentIdx + 1) % 16) (some b)
                    recentIdx := (st3.recentIdx + 1) % 16 } := by
                constructor
                · exact hg5.taken_len
                · exact hg5.slots_len
                · exact hg5.pilots_len
                · exact hg5.agree
                · intro s c hc
                  by_cases hcb : c = b
                  · subst hcb
                    have hs := (hownb s).mp hc
                    refine ⟨hblt, hbne, ?_, ?_, ?_⟩
                    · show s ∈ pslots cfg seed (bh c) (st3.pilots.getD c 0)
                      rw [hpil3, hpb]
                      exact hs
                    · show (pslots cfg seed (bh c) (st3.pilots.getD c 0)).Nodup
                      rw [hpil3, hpb]
                      exact hPnodup
                    · intro s2 hs2
                      rw [hpil3, hpb] at hs2
                      exact (hownb s2).mpr hs2
                  · obtain ⟨w1, w2, w3, w4, w5⟩ := hg5.others s c hc hcb
                    exact ⟨w1, w2, w3, w4, w5⟩
              have hStack4 : StackInv cfg bh
                  { st3 with
                    recent := st3.recent.set ((st3.recentIdx + 1) % 16) (some b)
                    recentIdx := (st3.recentIdx + 1) % 16 } := by
                have hstack3 : st3.stack = E.map (fun c => ((bh c).length, c)) ++ stack1 :=
                  gE1
                constructor
                · show (st3.stack.map Prod.snd).Nodup
                  rw [hstack3, List.map_append, List.map_map]
                  have hmap : E.map (Prod.snd ∘ fun c => ((bh c).length, c)) = E := by
                    rw [show (Prod.snd ∘ fun c => ((bh c).length, c)) = id from rfl,
                      List.map_id]
                  rw [hmap, List.nodup_append]
                  refine ⟨gE2, hnodup1, ?_⟩
                  intro c hcE hc1
                  have hplE := (gE3 c hcE).2.1
                  obtain ⟨s2, hs2⟩ := hplE
                  have hs2' : st.slotsArr.getD s2 none = some c := hs2
                  obtain ⟨e, he, he2⟩ := List.mem_map.mp hc1
                  have := (hStack.mem e (hstackmem1 e he)).2.2
                  apply this
                  rw [he2]
                  exact ⟨s2, hs2'⟩
                · intro e he
                  show bh e.2 ≠ [] ∧ e.2 < cfg.buckets ∧ ¬ placedIn _ e.2
                  rw [show ({ st3 with
                      recent := st3.recent.set ((st3.recentIdx + 1) % 16) (some b)
                      recentIdx := (st3.recentIdx + 1) % 16 } : EvSt).stack = st3.stack
                    from rfl, hstack3] at he
                  rcases List.mem_append.mp he with he2 | he2
                  · obtain ⟨c, hcE, hce⟩ := List.mem_map.mp he2
                    obtain ⟨p1, p2, p3, p4, p5⟩ := gE3 c hcE
                    rw [← hce]
                    exact ⟨p5, p4, p3⟩
                  · obtain ⟨v1, v2, v3⟩ := hStack.mem e (hstackmem1 e he2)
                    refine ⟨v1, v2, ?_⟩
                    intro hc
                    have heb : e.2 ≠ b := by
                      intro hh
                      apply hbnotin1
                      rw [← hh]
                      exact List.mem_map_of_mem Prod.snd he2
                    obtain ⟨s2, hs2⟩ := hc
                    have hs2' : st3.slotsArr.getD s2 none = some e.2 := hs2
                    have hmid2 := g6 e.2 heb ⟨s2, hs2'⟩
                    obtain ⟨s3, hs3⟩ := hmid2
                    have hs3' : st.slotsArr.getD s3 none = some e.2 := hs3
                    exact v3 ⟨s3, hs3'⟩
              obtain ⟨r1, r2, r3, r4⟩ := ih _ hPart4 hStack4 st' h
              have hplaceE : ∀ c ∈ E, placedIn st c := by
                intro c hcE
                obtain ⟨s2, hs2⟩ := (gE3 c hcE).2.1
                exact ⟨s2, hs2⟩
              have hbplaced4 : placedIn
                  { st3 with
                    recent := st3.recent.set ((st3.recentIdx + 1) % 16) (some b)
                    recentIdx := (st3.recentIdx + 1) % 16 } b := by
                have hPne : pslots cfg seed (bh b) sp.2 ≠ [] := pslots_ne_nil cfg seed _ _ hbne
                obtain ⟨s2, hs2⟩ := List.exists_mem_of_ne_nil _ hPne
                exact ⟨s2, (hownb s2).mpr hs2⟩
              have hstackB4 : stackBuckets
                  { st3 with
                    recent := st3.recent.set ((st3.recentIdx + 1) % 16) (some b)
                    recentIdx := (st3.recentIdx + 1) % 16 } =
                  E ++ stack1.map Prod.snd := by
                show st3.stack.map Prod.snd = E ++ stack1.map Prod.snd
                rw [gE1, List.map_append, List.map_map]
                rw [show (Prod.snd ∘ fun c => ((bh c).length, c)) = id from rfl, List.map_id]
              refine ⟨r1, r2, ?_, ?_⟩
              · intro c hc
                rcases hc with hc | hc
                · have hcb : c ≠ b := by
                    intro hh
                    subst hh
                    exact hbunpl hc
                  rcases gE4 c hcb hc with h2 | h2
                  · refine r3 c (Or.inl ?_)
                    obtain ⟨s2, hs2⟩ := h2
                    exact ⟨s2, hs2⟩
                  · refine r3 c (Or.inr ?_)
                    rw [hstackB4]
                    exact List.mem_append_left _ h2
                · have hc2 : c ∈ b :: stack1.map Prod.snd := hpermB.mem_iff.mp hc
                  rcases List.mem_cons.mp hc2 with rfl | hc3
                  · exact r3 c (Or.inl hbplaced4)
                  · refine r3 c (Or.inr ?_)
                    rw [hstackB4]
                    exact List.mem_append_right _ hc3
              · intro c hc
                rcases r4 c hc with hc2 | hc2
                · by_cases hcb : c = b
                  · subst hcb
                    exact Or.inr (hpermB.mem_iff.mpr (List.mem_cons_self _ _))
                  · obtain ⟨s2, hs2⟩ := hc2
                    have hs2' : st3.slotsArr.getD s2 none = some c := hs2
                    obtain ⟨s3, hs3⟩ := g6 c hcb ⟨s2, hs2'⟩
                    exact Or.inl ⟨s3, hs3⟩
                · rw [hstackB4] at hc2
                  rcases List.mem_append.mp hc2 with h2 | h2
                  · exact Or.inl (hplaceE c h2)
                  · exact Or.inr (hpermB.mem_iff.mpr (List.mem_cons_of_mem _ h2))

/-! ### The per-part build -/

/-- `buildPartGo` specification: processing the bucket list from an invariant
state places every nonempty listed bucket, preserves placement, and places
nothing outside the listed buckets. -/
theorem buildPartGo_spec (cfg : Cfg) (seed : Nat) (bh : Nat → List Nat) (draws : List Nat)
    (fuel : Nat) (hslots : 0 < cfg.slots) :
    ∀ (bs : List Nat) (st : EvSt),
      PartInv cfg seed bh st →
      bs.Nodup →
      (∀ b ∈ bs, b < cfg.buckets ∧ ¬ placedIn st b) →
      ∀ st', buildPartGo cfg seed bh draws fuel bs st = some st' →
        PartInv cfg seed bh st' ∧
        (∀ b ∈ bs, bh b ≠ [] → placedIn st' b) ∧
        (∀ c, placedIn st c → placedIn st' c) ∧
        (∀ c, placedIn st' c → placedIn st c ∨ c ∈ bs) := by
  intro bs
  induction bs with
  | nil =>
    intro st hPart _ _ st' h
    cases h
    refine ⟨hPart, ?_, fun c hc => hc, fun c hc => Or.inl hc⟩
    intro b hb
    cases hb
  | cons newB rest ih =>
    intro st hPart hnd hmem st' h
    have hfresh : ¬ placedIn st newB := (hmem newB (List.mem_cons_self _ _)).2
    have hnBlt : newB < cfg.buckets := (hmem newB (List.mem_cons_self _ _)).1
    have hndr : rest.Nodup := (List.nodup_cons.mp hnd).2
    have hnBr : newB ∉ rest := (List.nodup_cons.mp hnd).1
    unfold buildPartGo at h
    split at h
    · next hemp =>
      have hempty : bh newB = [] := by
        cases hb : bh newB
        · rfl
        · rw [hb] at hemp
          cases hemp
      have hPart1 : PartInv cfg seed bh { st with pilots := st.pilots.set newB 0 } := by
        constructor
        · exact hPart.taken_len
        · exact hPart.slots_len
        · show (st.pilots.set newB 0).length = cfg.buckets
          rw [List.length_set]; exact hPart.pilots_len
        · exact hPart.agree
        · intro s c hc
          obtain ⟨w1, w2, w3, w4, w5⟩ := hPart.owner_props s c hc
          have hcB : c ≠ newB := by
            intro hh
            subst hh
            exact hfresh ⟨s, hc⟩
          rw [show ({ st with pilots := st.pilots.set newB 0 } : EvSt).pilots =
            st.pilots.set newB 0 from rfl, getD_set_ne (fun hh => hcB hh.symm)]
          exact ⟨w1, w2, w3, w4, w5⟩
      obtain ⟨r1, r2, r3, r4⟩ := ih _ hPart1 hndr
        (fun b hb => ⟨(hmem b (List.mem_cons_of_mem _ hb)).1,
          (hmem b (List.mem_cons_of_mem _ hb)).2⟩) st' h
      refine ⟨r1, ?_, r3, ?_⟩
      · intro b hb hbne
        rcases List.mem_cons.mp hb with rfl | hb2
        · exact absurd hempty hbne
        · exact r2 b hb2 hbne
      · intro c hc
        rcases r4 c hc with h2 | h2
        · exact Or.inl h2
        · exact Or.inr (List.mem_cons_of_mem _ h2)
    · next hemp =>
      have hbne : bh newB ≠ [] := by
        intro hh
        apply hemp
        rw [hh]
        rfl
      split at h
      · cases h
      · next st2 hloop =>
        have hPartR : PartInv cfg seed bh
            { st with
              stack := [((bh newB).length, newB)]
              evictions := 0
              recent := (List.replicate 16 (none : Option Nat)).set 0 (some newB)
              recentIdx := 0 } := by
          constructor
          · exact hPart.taken_len
          · exact hPart.slots_len
          · exact hPart.pilots_len
          · exact hPart.agree
          · exact hPart.owner_props
        have hStackR : StackInv cfg bh
            { st with
              stack := [((bh newB).length, newB)]
              evictions := 0
              recent := (List.replicate 16 (none : Option Nat)).set 0 (some newB)
              recentIdx := 0 } := by
          constructor
          · show ([((bh newB).length, newB)].map Prod.snd).Nodup
            simp
          · intro e he
            rw [show ({ st with
                stack := [((bh newB).length, newB)]
                evictions := 0
                recent := (List.replicate 16 (none : Option Nat)).set 0 (some newB)
                recentIdx := 0 } : EvSt).stack = [((bh newB).length, newB)] from rfl,
              List.mem_singleton] at he
            subst he
            exact ⟨hbne, hnBlt, hfresh⟩
        obtain ⟨r1, r2, r3, r4⟩ :=
          evictLoop_spec cfg seed bh (bh newB).length draws hslots fuel _ hPartR hStackR
            st2 hloop
        have hstackBR : stackBuckets
            { st with
              stack := [((bh newB).length, newB)]
              evictions := 0
              recent := (List.replicate 16 (none : Option Nat)).set 0 (some newB)
              recentIdx := 0 } = [newB] := rfl
        have hmem2 : ∀ b ∈ rest, b < cfg.buckets ∧ ¬ placedIn st2 b := by
          intro b hb
          refine ⟨(hmem b (List.mem_cons_of_mem _ hb)).1, ?_⟩
          intro hc
          rcases r4 b hc with h2 | h2
          · exact (hmem b (List.mem_cons_of_mem _ hb)).2 h2
          · rw [hstackBR, List.mem_singleton] at h2
            subst h2
            exact hnBr hb
        obtain ⟨q1, q2, q3, q4⟩ := ih st2 r1 hndr hmem2 st' h
        refine ⟨q1, ?_, ?_, ?_⟩
        · intro b hb hbne2
          rcases List.mem_cons.mp hb with rfl | hb2
          · refine q3 b (r3 b (Or.inr ?_))
            rw [hstackBR]
            exact List.mem_singleton_self b
          · exact q2 b hb2 hbne2
        · intro c hc
          exact q3 c (r3 c (Or.inl hc))
        · intro c hc
          rcases q4 c hc with h2 | h2
          · rcases r4 c h2 with h3 | h3
            · exact Or.inl h3
            · rw [hstackBR, List.mem_singleton] at h3
              subst h3
              exact Or.inr (List.mem_cons_self _ _)
          · exact Or.inr (List.mem_cons_of_mem _ h2)

/-- The bucket of a 64-bit hash is in range. -/
theorem bucketOf_lt (cfg : Cfg) (hb : 0 < cfg.buckets) (hx : Nat) (hU : hx < U64) :
    bucketOf cfg hx < cfg.buckets := by
  unfold bucketOf mulHigh
  rw [Nat.div_lt_iff_lt_mul (by unfold U64; positivity)]
  exact mul_lt_mul_of_pos_left hU hb

/-- A hash is in its own bucket's slice. -/
theorem mem_bucketHashes_self (cfg : Cfg) (hashes : List Nat) (hx : Nat) (h : hx ∈ hashes) :
    hx ∈ bucketHashes cfg hashes (bucketOf cfg hx) := by
  unfold bucketHashes
  rw [List.mem_filter]
  exact ⟨h, by simp⟩

/-- The bucket slice only holds hashes of that bucket. -/
theorem mem_bucketHashes (cfg : Cfg) (hashes : List Nat) (b hx : Nat)
    (h : hx ∈ bucketHashes cfg hashes b) : hx ∈ hashes ∧ bucketOf cfg hx = b := by
  unfold bucketHashes at h
  rw [List.mem_filter] at h
  exact ⟨h.1, by simpa using h.2⟩

/-- Reading an all-`a` list with default `a` gives `a` everywhere. -/
theorem replicate_getD_self {α : Type} (n : Nat) (a : α) (i : Nat) :
    (List.replicate n a).getD i a = a := by
  rw [List.getD_eq_getElem?_getD, List.getElem?_replicate]
  split <;> rfl

/-- `build_part` success: the final pilots place every hash on a `taken` slot,
distinct hashes land on distinct slots, and every `taken` slot carries some
hash (the placement is a bijection between the hashes and the taken slots). -/
theorem buildPart_spec (cfg : Cfg) (seed : Nat) (hashes draws : List Nat) (fuel : Nat)
    (hslots : 0 < cfg.slots) (hbuckets : 0 < cfg.buckets)
    (hU : ∀ hx ∈ hashes, hx < U64) :
    ∀ pilots taken dcount,
      buildPart cfg seed hashes draws fuel = some (pilots, taken, dcount) →
      pilots.length = cfg.buckets ∧ taken.length = cfg.slots ∧
      (∀ hx ∈ hashes, taken.getD (slotFor cfg seed pilots hx) false = true) ∧
      (∀ hx1 ∈ hashes, ∀ hx2 ∈ hashes, hx1 ≠ hx2 →
        slotFor cfg seed pilots hx1 ≠ slotFor cfg seed pilots hx2) ∧
      (∀ s, taken.getD s false = true → ∃ hx, hx ∈ hashes ∧ slotFor cfg seed pilots hx = s) := by
  intro pilots taken dcount h
  unfold buildPart at h
  split at h
  · cases h
  · next st hgo =>
    cases h
    have hPart0 : PartInv cfg seed (bucketHashes cfg hashes)
        { pilots := List.replicate cfg.buckets 0
          taken := List.replicate cfg.slots false
          slotsArr := List.replicate cfg.slots none
          stack := []
          evictions := 0
          recent := List.replicate 16 none
          recentIdx := 0
          drawIdx := 0 } := by
      constructor
      · exact List.length_replicate _ _
      · exact List.length_replicate _ _
      · exact List.length_replicate _ _
      · intro s
        show (List.replicate cfg.slots false).getD s false =
          ((List.replicate cfg.slots (none : Option Nat)).getD s none).isSome
        rw [replicate_getD_self, replicate_getD_self]
        rfl
      · intro s c hc
        have hc' : (List.replicate cfg.slots (none : Option Nat)).getD s none = some c := hc
        rw [replicate_getD_self] at hc'
        cases hc'
    have hbo := bucketOrder_perm (fun b => (bucketHashes cfg hashes b).length) cfg.buckets
    have hbnd : (bucketOrder (fun b => (bucketHashes cfg hashes b).length)
        cfg.buckets).Nodup := hbo.nodup_iff.mpr (List.nodup_range _)
    obtain ⟨r1, r2, r3, r4⟩ := buildPartGo_spec cfg seed (bucketHashes cfg hashes) draws
      fuel hslots _ _ hPart0 hbnd
      (by
        intro b hb
        refine ⟨?_, ?_⟩
        · have := hbo.mem_iff.mp hb
          exact List.mem_range.mp this
        · intro hc
          obtain ⟨s, hs⟩ := hc
          have hs' : (List.replicate cfg.slots (none : Option Nat)).getD s none = some b := hs
          rw [replicate_getD_self] at hs'
          cases hs')
      st hgo
    have hplacedAll : ∀ hx ∈ hashes,
        st.slotsArr.getD (slotFor cfg seed st.pilots hx) none = some (bucketOf cfg hx) := by
      intro hx hhx
      have hblt : bucketOf cfg hx < cfg.buckets := bucketOf_lt cfg hbuckets hx (hU hx hhx)
      have hbne : bucketHashes cfg hashes (bucketOf cfg hx) ≠ [] :=
        List.ne_nil_of_mem (mem_bucketHashes_self cfg hashes hx hhx)
      have hbin : bucketOf cfg hx ∈ bucketOrder
          (fun b => (bucketHashes cfg hashes b).length) cfg.buckets :=
        hbo.mem_iff.mpr (List.mem_range.mpr hblt)
      have hplaced := r2 _ hbin hbne
      obtain ⟨s0, hs0⟩ := hplaced
      obtain ⟨w1, w2, w3, w4, w5⟩ := r1.owner_props s0 _ hs0
      apply w5
      show slotFor cfg seed st.pilots hx ∈
        (bucketHashes cfg hashes (bucketOf cfg hx)).map
          (fun h2 => slotInPartHp cfg h2
            (hashPilot seed (st.pilots.getD (bucketOf cfg hx) 0)))
      exact List.mem_map_of_mem _ (mem_bucketHashes_self cfg hashes hx hhx)
    refine ⟨r1.pilots_len, r1.taken_len, ?_, ?_, ?_⟩
    · intro hx hhx
      rw [r1.agree, hplacedAll hx hhx]
      rfl
    · intro hx1 h1 hx2 h2 hne heq
      have e1 := hplacedAll hx1 h1
      have e2 := hplacedAll hx2 h2
      rw [heq, e2] at e1
      have hbeq : bucketOf cfg hx2 = bucketOf cfg hx1 := Option.some.inj e1
      have hmem1 : hx1 ∈ bucketHashes cfg hashes (bucketOf cfg hx1) :=
        mem_bucketHashes_self cfg hashes hx1 h1
      have hmem2 : hx2 ∈ bucketHashes cfg hashes (bucketOf cfg hx1) := by
        rw [← hbeq]
        exact mem_bucketHashes_self cfg hashes hx2 h2
      obtain ⟨w1, w2, w3, w4, w5⟩ :=
        r1.owner_props (slotFor cfg seed st.pilots hx1) _ (hplacedAll hx1 h1)
      have hinj := List.inj_on_of_nodup_map w4
      apply hne
      apply hinj hmem1 hmem2
      show slotFor cfg seed st.pilots hx1 =
        slotInPartHp cfg hx2 (hashPilot seed (st.pilots.getD (bucketOf cfg hx1) 0))
      rw [heq]
      show slotInPartHp cfg hx2 (hashPilot seed (st.pilots.getD (bucketOf cfg hx2) 0)) =
        slotInPartHp cfg hx2 (hashPilot seed (st.pilots.getD (bucketOf cfg hx1) 0))
      rw [hbeq]
    · intro s hts
      have ha := r1.agree s
      rw [hts] at ha
      cases ho : st.slotsArr.getD s none with
      | none =>
        rw [ho] at ha
        simp at ha
      | some c =>
        obtain ⟨w1, w2, w3, w4, w5⟩ := r1.owner_props s c ho
        obtain ⟨hx, hhx, hfx⟩ := List.mem_map.mp w3
        obtain ⟨hh1, hh2⟩ := mem_bucketHashes cfg hashes c hx hhx
        refine ⟨hx, hh1, ?_⟩
        show slotInPartHp cfg hx (hashPilot seed (st.pilots.getD (bucketOf cfg hx) 0)) = s
        rw [hh2]
        exact hfx

/-! ### Pipeline assembly -/

/-- A duplicate-free list of `n` values below `n` is a permutation of
`range n`. -/
theorem perm_range_of_nodup_lt (l : List Nat) (n : Nat) (hlen : l.length = n)
    (hnd : l.Nodup) (hlt : ∀ x ∈ l, x < n) : l.Perm (List.range n) := by
  apply List.perm_of_nodup_nodup_toFinset_eq hnd (List.nodup_range n)
  apply Finset.eq_of_subset_of_card_le
  · intro x hx
    rw [List.mem_toFinset] at hx ⊢
    rw [List.mem_range]
    exact hlt x hx
  · rw [List.toFinset_card_of_nodup hnd, List.toFinset_card_of_nodup (List.nodup_range n),
      List.length_range, hlen]

/-- Hashes are 64-bit values. -/
theorem fastIntHash_lt (x seed : Nat) : fastIntHash x seed < U64 := by
  unfold fastIntHash U64
  exact Nat.xor_lt_two_pow (Nat.mod_lt _ (by positivity)) (Nat.mod_lt _ (by positivity))

/-- The final slot of any hash is in range. -/
theorem slotFor_lt (cfg : Cfg) (hpos : 0 < cfg.slots) (seed : Nat) (pilots : List Nat)
    (hx : Nat) : slotFor cfg seed pilots hx < cfg.slots := by
  unfold slotFor slotInPartHp fm32
  rw [Nat.max_eq_left hpos]
  exact Nat.mod_lt _ hpos

/-- The per-part slot count is at least the key count (`alpha < 1`). -/
theorem slotsPerPart_ge (n : Nat) : n ≤ slotsPerPart n 99 100 := by
  have h : n ≤ n * 100 / 99 :=
    (Nat.le_div_iff_mul_le (by norm_num)).mpr (Nat.mul_le_mul_left n (by norm_num))
  show n ≤ if isPow2 (n * 100 / 99) then n * 100 / 99 + 1 else n * 100 / 99
  split
  · omega
  · omega

/-- The configuration produced by `init` with the default parameters. -/
theorem mkCfg_spec (n : Nat) (cfg : Cfg) (h : mkCfg n = some cfg) :
    cfg.n = n ∧ cfg.remapEnabled = true ∧ n ≤ cfg.slots ∧ 0 < cfg.buckets := by
  unfold mkCfg at h
  split at h
  · next spp bpp st bt heq =>
    cases h
    have heq3 : (if 1 * bucketsPerPart (n / 1) 3 1 > 100000000 then
        InitOutcome.bucketsOverflow
      else if 1 * slotsPerPart (n / 1) 99 100 > 1000000000 then InitOutcome.slotsOverflow
      else InitOutcome.ok (slotsPerPart (n / 1) 99 100) (bucketsPerPart (n / 1) 3 1)
        (1 * slotsPerPart (n / 1) 99 100) (1 * bucketsPerPart (n / 1) 3 1)) =
        InitOutcome.ok spp bpp st bt := heq
    split at heq3
    · cases heq3
    · split at heq3
      · cases heq3
      · cases heq3
        refine ⟨rfl, rfl, ?_, ?_⟩
        · show n ≤ slotsPerPart (n / 1) 99 100
          rw [Nat.div_one]
          exact slotsPerPart_ge n
        · show 0 < bucketsPerPart (n / 1) 3 1
          unfold bucketsPerPart
          omega
  · cases h

/-- One successful seed attempt yields a minimal perfect index: the indices
of the keys are exactly `0, …, N−1`. -/
theorem attempt_spec (cfg : Cfg) (keys : List Nat) (seed : Nat) (draws : List Nat)
    (fuel : Nat) (ph : PH)
    (hcn : cfg.n = keys.length) (hen : cfg.remapEnabled = true)
    (hslots : 0 < cfg.slots) (hns : cfg.n ≤ cfg.slots) (hbuckets : 0 < cfg.buckets)
    (h : attempt cfg keys seed draws fuel = some ph) :
    (keys.map (index ph)).Perm (List.range keys.length) := by
  unfold attempt at h
  split at h
  · cases h
  · next hashes hsort =>
    split at h
    · cases h
    · next res hbuild =>
      split at h
      · cases h
      · next remap hremap =>
        cases h
        obtain ⟨hperm, hnd⟩ := sortParts_spec _ _ hsort
        have hU : ∀ hx ∈ hashes, hx < U64 := by
          intro hx hhx
          obtain ⟨k, _, rfl⟩ := List.mem_map.mp (hperm.mem_iff.mp hhx)
          exact fastIntHash_lt k seed
        obtain ⟨hp1, hp2, htk, hinj, hsurj⟩ :=
          buildPart_spec cfg seed hashes draws fuel hslots hbuckets hU
            res.1 res.2.1 res.2.2 hbuild
        have hcount : countFalse res.2.1 = cfg.slots - cfg.n := by
          by_contra hc
          unfold remapFreeSlots at hremap
          rw [if_pos hc] at hremap
          exact absurd hremap (by simp)
        have hmapnd : (keys.map (fun k => fastIntHash k seed)).Nodup :=
          hperm.nodup_iff.mp hnd
        have hknd : keys.Nodup := List.Nodup.of_map _ hmapnd
        have hhashinj := List.inj_on_of_nodup_map hmapnd
        have hmem' : ∀ k ∈ keys, fastIntHash k seed ∈ hashes :=
          fun k hk => hperm.mem_iff.mpr (List.mem_map_of_mem _ hk)
        have hidx : ∀ k, index { cfg := cfg, seed := seed, pilots := res.1, remap := remap } k =
            if slotFor cfg seed res.1 (fastIntHash k seed) < cfg.n
            then slotFor cfg seed res.1 (fastIntHash k seed)
            else remap.getD (slotFor cfg seed res.1 (fastIntHash k seed) - cfg.n) 0 :=
          fun k => rfl
        have hstaken : ∀ k ∈ keys,
            res.2.1.getD (slotFor cfg seed res.1 (fastIntHash k seed)) false = true :=
          fun k hk => htk _ (hmem' k hk)
        have hslt : ∀ k, slotFor cfg seed res.1 (fastIntHash k seed) < cfg.slots :=
          fun k => slotFor_lt cfg hslots seed res.1 _
        have hsinj : ∀ k1 ∈ keys, ∀ k2 ∈ keys, k1 ≠ k2 →
            slotFor cfg seed res.1 (fastIntHash k1 seed) ≠
              slotFor cfg seed res.1 (fastIntHash k2 seed) := by
          intro k1 h1 k2 h2 hne
          refine hinj _ (hmem' k1 h1) _ (hmem' k2 h2) ?_
          intro hh
          exact hne (hhashinj h1 h2 hh)
        by_cases hcase : cfg.slots = cfg.n
        · -- no overflow slots: every slot is below n
          have hlow : ∀ k, slotFor cfg seed res.1 (fastIntHash k seed) < cfg.n := by
            intro k
            have := hslt k
            omega
          apply perm_range_of_nodup_lt _ _ (List.length_map _ _)
          · apply List.Nodup.map_on ?_ hknd
            intro k1 h1 k2 h2 heq
            by_contra hne
            rw [hidx k1, if_pos (hlow k1), hidx k2, if_pos (hlow k2)] at heq
            exact hsinj k1 h1 k2 h2 hne heq
          · intro x hx
            obtain ⟨k, hk, rfl⟩ := List.mem_map.mp hx
            rw [hidx k, if_pos (hlow k), ← hcn]
            exact hlow k
        · have hlt : cfg.n < cfg.slots := by omega
          obtain ⟨v, hv, hs2, hs3, hs4, hs5, hs6⟩ :=
            remapFreeSlots_spec cfg res.2.1 hp2 hcount hen hlt
          have hveq : v = remap := by
            rw [hremap] at hv
            exact (Option.some.inj hv).symm
          rw [hveq] at hs2 hs3 hs4 hs5 hs6
          have hnlen : cfg.n ≤ res.2.1.length := by omega
          have hFLnd : (freeLows res.2.1 cfg.n).Nodup := by
            rw [freeLows_eq _ _ hnlen]
            exact (List.nodup_range _).filter _
          have hFLlt : ∀ x ∈ freeLows res.2.1 cfg.n, x < cfg.n := by
            rw [freeLows_eq _ _ hnlen]
            intro x hx
            exact List.mem_range.mp (List.mem_of_mem_filter hx)
          have hFLfree : ∀ x ∈ freeLows res.2.1 cfg.n, res.2.1.getD x false = false := by
            rw [freeLows_eq _ _ hnlen]
            intro x hx
            have h2 := List.of_mem_filter hx
            simpa using h2
          have hhigh : ∀ k ∈ keys, cfg.n ≤ slotFor cfg seed res.1 (fastIntHash k seed) →
              (slotFor cfg seed res.1 (fastIntHash k seed) - cfg.n < remap.length ∧
                tcb res.2.1 cfg.n (slotFor cfg seed res.1 (fastIntHash k seed) - cfg.n) <
                  (freeLows res.2.1 cfg.n).length ∧
                index { cfg := cfg, seed := seed, pilots := res.1, remap := remap } k =
                  (freeLows res.2.1 cfg.n).getD
                    (tcb res.2.1 cfg.n
                      (slotFor cfg seed res.1 (fastIntHash k seed) - cfg.n)) 0) := by
            intro k hk hhk
            have hjlt : slotFor cfg seed res.1 (fastIntHash k seed) - cfg.n <
                remap.length := by
              by_contra hc
              have h6 := hs6 (slotFor cfg seed res.1 (fastIntHash k seed)) (by omega)
              rw [hstaken k hk] at h6
              cases h6
            have htj : res.2.1.getD
                (cfg.n + (slotFor cfg seed res.1 (fastIntHash k seed) - cfg.n)) false =
                true := by
              rw [show cfg.n + (slotFor cfg seed res.1 (fastIntHash k seed) - cfg.n) =
                slotFor cfg seed res.1 (fastIntHash k seed) by omega]
              exact hstaken k hk
            have htcblt : tcb res.2.1 cfg.n
                (slotFor cfg seed res.1 (fastIntHash k seed) - cfg.n) <
                (freeLows res.2.1 cfg.n).length := by
              have h1 := tcb_succ_true res.2.1 cfg.n _ htj
              have h2 := tcb_mono res.2.1 cfg.n
                (show (slotFor cfg seed res.1 (fastIntHash k seed) - cfg.n) + 1 ≤
                  remap.length by omega)
              rw [hs3] at h2
              omega
            refine ⟨hjlt, htcblt, ?_⟩
            rw [hidx k, if_neg (by omega)]
            exact hs4 _ hjlt
          have htcbinj : ∀ j1 j2, res.2.1.getD (cfg.n + j1) false = true →
              res.2.1.getD (cfg.n + j2) false = true → j1 ≠ j2 →
              tcb res.2.1 cfg.n j1 ≠ tcb res.2.1 cfg.n j2 := by
            intro j1 j2 ht1 ht2 hne12
            rcases Nat.lt_or_ge j1 j2 with h12 | h12
            · have ha := tcb_succ_true res.2.1 cfg.n j1 ht1
              have hb := tcb_mono res.2.1 cfg.n (show j1 + 1 ≤ j2 by omega)
              omega
            · have h21 : j2 < j1 := by omega
              have ha := tcb_succ_true res.2.1 cfg.n j2 ht2
              have hb := tcb_mono res.2.1 cfg.n (show j2 + 1 ≤ j1 by omega)
              omega
          have hFLgetinj : ∀ i1 i2, i1 < (freeLows res.2.1 cfg.n).length →
              i2 < (freeLows res.2.1 cfg.n).length → i1 ≠ i2 →
              (freeLows res.2.1 cfg.n).getD i1 0 ≠ (freeLows res.2.1 cfg.n).getD i2 0 := by
            intro i1 i2 hi1 hi2 hne12 heq12
            rw [List.getD_eq_getElem _ _ hi1, List.getD_eq_getElem _ _ hi2] at heq12
            have := List.nodup_iff_injective_get.mp hFLnd
              (show (freeLows res.2.1 cfg.n).get ⟨i1, hi1⟩ =
                (freeLows res.2.1 cfg.n).get ⟨i2, hi2⟩ from heq12)
            exact hne12 (congrArg Fin.val this)
          have hFLgetmem : ∀ i, i < (freeLows res.2.1 cfg.n).length →
              (freeLows res.2.1 cfg.n).getD i 0 ∈ freeLows res.2.1 cfg.n := by
            intro i hi
            rw [List.getD_eq_getElem _ _ hi]
            exact List.get_mem _ i hi
          apply perm_range_of_nodup_lt _ _ (List.length_map _ _)
          · apply List.Nodup.map_on ?_ hknd
            intro k1 h1 k2 h2 heq
            by_contra hne
            have hs12 := hsinj k1 h1 k2 h2 hne
            rcases Nat.lt_or_ge (slotFor cfg seed res.1 (fastIntHash k1 seed)) cfg.n
              with hc1 | hc1 <;>
              rcases Nat.lt_or_ge (slotFor cfg seed res.1 (fastIntHash k2 seed)) cfg.n
                with hc2 | hc2
            · rw [hidx k1, if_pos hc1, hidx k2, if_pos hc2] at heq
              exact hs12 heq
            · obtain ⟨hj2, ht2, hv2⟩ := hhigh k2 h2 hc2
              rw [hidx k1, if_pos hc1] at heq
              rw [hv2] at heq
              have hfree2 := hFLfree _ (hFLgetmem _ ht2)
              rw [← heq] at hfree2
              rw [hstaken k1 h1] at hfree2
              cases hfree2
            · obtain ⟨hj1, ht1, hv1⟩ := hhigh k1 h1 hc1
              rw [hidx k2, if_pos hc2] at heq
              rw [hv1] at heq
              have hfree1 := hFLfree _ (hFLgetmem _ ht1)
              rw [heq] at hfree1
              rw [hstaken k2 h2] at hfree1
              cases hfree1
            · obtain ⟨hj1, ht1, hv1⟩ := hhigh k1 h1 hc1
              obtain ⟨hj2, ht2, hv2⟩ := hhigh k2 h2 hc2
              rw [hv1, hv2] at heq
              refine hFLgetinj _ _ ht1 ht2 ?_ heq
              apply htcbinj
              · rw [show cfg.n + (slotFor cfg seed res.1 (fastIntHash k1 seed) - cfg.n) =
                  slotFor cfg seed res.1 (fastIntHash k1 seed) by omega]
                exact hstaken k1 h1
              · rw [show cfg.n + (slotFor cfg seed res.1 (fastIntHash k2 seed) - cfg.n) =
                  slotFor cfg seed res.1 (fastIntHash k2 seed) by omega]
                exact hstaken k2 h2
              · omega
          · intro x hx
            obtain ⟨k, hk, rfl⟩ := List.mem_map.mp hx
            rcases Nat.lt_or_ge (slotFor cfg seed res.1 (fastIntHash k seed)) cfg.n
              with hc | hc
            · rw [hidx k, if_pos hc, ← hcn]
              exact hc
            · obtain ⟨hj, ht, hv2⟩ := hhigh k hk hc
              rw [hv2, ← hcn]
              exact hFLlt _ (hFLgetmem _ ht)

/-- C1: for every non-empty key set `K` with `|K| ≤ 2^40` for which the
build returns an index, the map `k ↦ index(k)` restricted to `K` is a
bijection onto `{0, 1, …, |K|−1}`: the list of the keys' indices is a
permutation of `0, …, N−1`, so every key gets an index in `[0, N)` and no two
distinct keys share one. -/
theorem c1_index_bijection (keys : List Nat) (seeds : Nat → Nat) (draws : List Nat)
    (fuel : Nat) (ph : PH) (hne : 1 ≤ keys.length) (hbound : keys.length ≤ 2 ^ 40)
    (h : tryNew keys seeds draws fuel = some ph) :
    (keys.map (index ph)).Perm (List.range keys.length) := by
  unfold tryNew at h
  split at h
  · cases h
  · next cfg hcfg =>
    obtain ⟨hcn, hen, hnle, hbuckets⟩ := mkCfg_spec keys.length cfg hcfg
    rw [computePilotsGo_eq_findSome] at h
    obtain ⟨j, _, hatt⟩ := List.exists_of_findSome?_eq_some h
    exact attempt_spec cfg keys (seeds (0 + j)) draws fuel ph hcn hen
      (by omega) (by omega) hbuckets hatt

set_option maxRecDepth 40000 in
/-- Witness for `c1_index_bijection`: the key set `{2}` builds (seed stream
`0, 0, …`) and its single index is exactly `[0]`. -/
theorem c1_witness :
    1 ≤ ([2] : List Nat).length ∧ ([2] : List Nat).length ≤ 2 ^ 40 ∧
    tryNew [2] (fun _ => 0) [] 100 = some phKeys2 ∧
    (([2] : List Nat).map (index phKeys2)).Perm (List.range ([2] : List Nat).length) := by
  have htry : tryNew [2] (fun _ => 0) [] 100 = some phKeys2 := by decide
  exact ⟨by decide, by norm_num, htry,
    c1_index_bijection [2] (fun _ => 0) [] 100 phKeys2 (by decide) (by norm_num) htry⟩

end LearnedKv
